import Mathlib

/-!
Verification of the Contacts Matcher 5000 matching engine
(`leadmatcher5000.py` and `app.py`) against its specification.

The Python code is shallowly embedded: strings are `List Char` wrapped in
`String`, `re.sub` calls become deterministic left-to-right scanners with the
same non-overlapping match semantics, pandas rows become association lists
where a `none` value models `NaN`, and the fuzzywuzzy similarity functions are
embedded following their pure-Python backend (difflib's `SequenceMatcher`;
all strings scored in this development are far below the 200-character
threshold at which difflib's autojunk heuristic could first act, so the
heuristic is inert and is not modelled).
-/

namespace CM

/-- Python `\s` (ASCII range): space, tab, newline, carriage return,
form feed, vertical tab. -/
def pyWs (c : Char) : Bool :=
  c = ' ' || c = '\t' || c = '\n' || c = '\r' || c = '\x0c' || c = '\x0b'

/-- Python `\w` (ASCII model): letters, digits, underscore. -/
def isWordChar (c : Char) : Bool :=
  ('a' ≤ c && c ≤ 'z') || ('A' ≤ c && c ≤ 'Z') || ('0' ≤ c && c ≤ '9') || c = '_'

/-- ASCII letter (regex class `[A-Za-z]`). -/
def isAsciiLetter (c : Char) : Bool :=
  ('a' ≤ c && c ≤ 'z') || ('A' ≤ c && c ≤ 'Z')

/-- ASCII digit (regex class `\d`). -/
def isAsciiDigit (c : Char) : Bool := '0' ≤ c && c ≤ '9'

/-- Python `str.lower` on one character (ASCII model). -/
def lowerChar (c : Char) : Char :=
  if 'A' ≤ c ∧ c ≤ 'Z' then Char.ofNat (c.toNat + 32) else c

/-- Python `str.lower` on a character list. -/
def pyLowerL (cs : List Char) : List Char := cs.map lowerChar

/-- Drop trailing characters satisfying `p`. -/
def dropRightWhileL (p : Char → Bool) (cs : List Char) : List Char :=
  (cs.reverse.dropWhile p).reverse

/-- Python `str.strip()` (whitespace at both ends). -/
def pyStripL (cs : List Char) : List Char :=
  dropRightWhileL pyWs (cs.dropWhile pyWs)

/-- Python `str.strip(chars)` for an explicit character set. -/
def pyStripCharsL (set : List Char) (cs : List Char) : List Char :=
  dropRightWhileL (fun c => set.contains c) (cs.dropWhile (fun c => set.contains c))

/-- If `w` is a prefix of `cs`, return the remainder. -/
def dropPrefixQ (w cs : List Char) : Option (List Char) :=
  match w, cs with
  | [], cs => some cs
  | _ :: _, [] => none
  | a :: w, c :: cs => if a = c then dropPrefixQ w cs else none

/-- Naive substring test (Python's `sub in s`). -/
def containsSub (cs w : List Char) : Bool :=
  match cs with
  | [] => (dropPrefixQ w []).isSome
  | _ :: cs' => (dropPrefixQ w cs).isSome || containsSub cs' w

/-- Left-to-right global `re.sub` scanner: `matchAt` attempts a match at the
current position; on success the replacement is emitted and scanning resumes
after the consumed text, otherwise one character is copied.  This is exactly
Python's non-overlapping, leftmost-match `re.sub` for patterns that cannot
match the empty string (every matcher used here consumes at least one
character, so the structural fuel `length + 1` supplied by `scanSub` never
runs out). -/
def scanSubF (m : List Char → Option (List Char)) (repl : List Char) :
    Nat → List Char → List Char
  | 0, _ => []
  | _, [] => []
  | fuel + 1, c :: cs =>
    match m (c :: cs) with
    | some r => repl ++ scanSubF m repl fuel r
    | none => c :: scanSubF m repl fuel cs

/-- Python `re.sub` scanner with sufficient fuel. -/
def scanSub (m : List Char → Option (List Char)) (repl : List Char)
    (cs : List Char) : List Char :=
  scanSubF m repl (cs.length + 1) cs

/-- Match `\s*\&\s*` at the current position. -/
def matchAmpAt (cs : List Char) : Option (List Char) :=
  match cs.dropWhile pyWs with
  | '&' :: rest => some (rest.dropWhile pyWs)
  | _ => none

/-- Python `re.sub(r'\s*\&\s*', ' & ', s)`. -/
def ampSpace : List Char → List Char :=
  scanSub matchAmpAt [' ', '&', ' ']

/-- Python `re.sub(r'^the\s+', '', s)`: drop a leading "the" followed by at least one
whitespace character (together with that whitespace run). -/
def theStrip (cs : List Char) : List Char :=
  match cs with
  | 't' :: 'h' :: 'e' :: rest =>
    match rest with
    | c :: _ => if pyWs c then rest.dropWhile pyWs else cs
    | [] => cs
  | _ => cs

/-- Match the regex `qcr\s*holdings?\s*(?:inc|incorporated)?` at the current
position, with Python's greedy/leftmost-alternative semantics.  Because "inc"
is a prefix of "incorporated" and alternatives are tried left to right, the
branch "incorporated" can never be taken in full: the engine commits to "inc"
whenever those three characters are present. -/
def matchQcrAt (cs : List Char) : Option (List Char) :=
  match dropPrefixQ [ 'q', 'c', 'r' ] cs with
  | none => none
  | some r1 =>
    match dropPrefixQ [ 'h', 'o', 'l', 'd', 'i', 'n', 'g' ] (r1.dropWhile pyWs) with
    | none => none
    | some r3 =>
      let r4 := match r3 with
                | 's' :: t => t
                | _ => r3
      let r5 := r4.dropWhile pyWs
      some ((dropPrefixQ [ 'i', 'n', 'c' ] r5).getD r5)

/-- Python `re.sub(r'qcr\s*holdings?\s*(?:inc|incorporated)?', 'qcr holdings', s)`. -/
def qcrSub : List Char → List Char :=
  scanSub matchQcrAt [ 'q', 'c', 'r', ' ', 'h', 'o', 'l', 'd', 'i', 'n', 'g', 's' ]

/-- Match `\s*PHRASE\s+` at the current position (the division/subsidiary
phrases; PHRASE is a nonempty literal starting with a letter, so the greedy
`\s*` never needs to backtrack). -/
def matchPhraseAt (phrase : List Char) (cs : List Char) : Option (List Char) :=
  match dropPrefixQ phrase (cs.dropWhile pyWs) with
  | none => none
  | some r1 =>
    match r1 with
    | c :: rest => if pyWs c then some (rest.dropWhile pyWs) else none
    | [] => none

/-- One division-phrase removal pass: `re.sub(rf'\s*{div}\s+', ' ', s)`. -/
def phraseSub (phrase : List Char) : List Char → List Char :=
  scanSub (matchPhraseAt phrase) [' ']

/-- Match `\s+SUFFIX(?:\s+|$)` at the current position. -/
def matchSuffixAt (suf : List Char) (cs : List Char) : Option (List Char) :=
  match cs with
  | c :: _ =>
    if pyWs c then
      match dropPrefixQ suf (cs.dropWhile pyWs) with
      | some r1 =>
        match r1 with
        | [] => some []
        | d :: t => if pyWs d then some (t.dropWhile pyWs) else none
      | none => none
    else none
  | [] => none

/-- One suffix-removal pass: `re.sub(rf'\s+{suffix}(?:\s+|$)', ' ', s)`. -/
def suffixSub (suf : List Char) : List Char → List Char :=
  scanSub (matchSuffixAt suf) [' ']

/-- Match `\s+` at the current position (for whitespace collapsing). -/
def matchWsRun (cs : List Char) : Option (List Char) :=
  match cs with
  | c :: rest => if pyWs c then some (rest.dropWhile pyWs) else none
  | [] => none

/-- Python `re.sub(r'\s+', ' ', s)`. -/
def wsCollapse : List Char → List Char :=
  scanSub matchWsRun [' ']

/-- Match `\.+` at the current position (for dot collapsing). -/
def matchDotRun (cs : List Char) : Option (List Char) :=
  match cs with
  | '.' :: rest => some (rest.dropWhile (· = '.'))
  | _ => none

/-- Python `re.sub(r'\.+', '.', s)`. -/
def dotCollapse : List Char → List Char :=
  scanSub matchDotRun ['.']

/-- Word-ness of an optional character (out-of-string counts as non-word). -/
def isWordOpt : Option Char → Bool
  | none => false
  | some c => isWordChar c

/-- Match the regex `\bW\b` (a word-boundary delimited literal) at the current
position, given the character physically preceding this position. -/
def matchWordAt (w : List Char) (prev : Option Char) (cs : List Char) : Option (List Char) :=
  match w with
  | [] => none
  | a :: _ =>
    if isWordOpt prev != isWordChar a then
      match dropPrefixQ w cs with
      | some rest =>
        if isWordChar (w.getLastD a) != isWordOpt rest.head? then some rest else none
      | none => none
    else none

/-- Global word-boundary substitution `re.sub(rf'\b{w}\b', repl, s)`, scanning
the original string left to right; `prev` is the character just before the
current position in the original string (needed for the left boundary). -/
def wbSubF (w repl : List Char) : Nat → Option Char → List Char → List Char
  | 0, _, _ => []
  | _, _, [] => []
  | fuel + 1, prev, c :: cs =>
    match matchWordAt w prev (c :: cs) with
    | some rest => repl ++ wbSubF w repl fuel (some (w.getLastD c)) rest
    | none => c :: wbSubF w repl fuel (some c) cs

/-- Word-boundary substitution with sufficient fuel. -/
def wbSub (w repl : List Char) (prev : Option Char) (cs : List Char) : List Char :=
  wbSubF w repl (cs.length + 1) prev cs

/-- Python `re.sub(r'([A-Za-z])\.([A-Za-z])', r'\1. \2', s)`: space initials; the
second letter is consumed by the match, so scanning resumes after it. -/
def initialsSubF : Nat → List Char → List Char
  | 0, _ => []
  | _, [] => []
  | fuel + 1, a :: '.' :: b :: rest =>
    if isAsciiLetter a && isAsciiLetter b then a :: '.' :: ' ' :: b :: initialsSubF fuel rest
    else a :: initialsSubF fuel ('.' :: b :: rest)
  | fuel + 1, c :: cs => c :: initialsSubF fuel cs

/-- The initials-spacing substitution with sufficient fuel. -/
def initialsSub (cs : List Char) : List Char :=
  initialsSubF (cs.length + 1) cs

/-- Python `re.sub(rf'^{w}\s+', '', s)`: strip a leading word followed by whitespace. -/
def stripLeadWord (w : List Char) (cs : List Char) : List Char :=
  match dropPrefixQ w cs with
  | some rest =>
    match rest with
    | c :: _ => if pyWs c then rest.dropWhile pyWs else cs
    | [] => cs
  | none => cs

/-- Python `re.sub(rf'\s+{w}$', '', s)`: strip a trailing word preceded by whitespace
(implemented on the reversed string). -/
def stripTrailWord (w : List Char) (cs : List Char) : List Char :=
  match dropPrefixQ w.reverse cs.reverse with
  | some rest =>
    match rest with
    | c :: _ => if pyWs c then (rest.dropWhile pyWs).reverse else cs
    | [] => cs
  | none => cs

/-- Python `str.split()`: split on whitespace runs, dropping empty tokens. -/
def pySplitF : Nat → List Char → List (List Char)
  | 0, _ => []
  | _, [] => []
  | fuel + 1, c :: cs =>
    if pyWs c then pySplitF fuel cs
    else (c :: cs.takeWhile (fun d => !pyWs d)) ::
      pySplitF fuel (cs.dropWhile (fun d => !pyWs d))

/-- Python `str.split()` with sufficient fuel. -/
def pySplit (l : List Char) : List (List Char) :=
  pySplitF (l.length + 1) l

/-- Python `' '.join(words)`. -/
def joinSpace (ws : List (List Char)) : List Char :=
  List.intercalate [' '] ws

/-! ## leadmatcher5000.py : the Normalizer -/

/-- Education keywords (`edu_keywords` in `normalize_company_name`). -/
def edu_keywords : List String := ["university", "college", "institute", "school"]

/-- The abbreviation table (`abbrev_map` in `normalize_company_name`). -/
def abbrev_map : List (String × String) :=
  [("corp", "corporation"), ("inc", "incorporated"), ("intl", "international"),
   ("tech", "technology"), ("mfg", "manufacturing"), ("svcs", "services"),
   ("sys", "systems"), ("grp", "group"), ("hldg", "holding"),
   ("univ", "university"), ("hosp", "hospital"), ("med", "medical"),
   ("ctr", "center")]

/-- The corporate-suffix list of `normalize_company_name`, already put in the
order produced by `sorted(suffixes, key=len, reverse=True)` (Python's sort is
stable, so words of equal length keep their original relative order). -/
def suffixes_sorted : List String :=
  ["international", "technologies", "corporation", "proprietary", "technology",
   "worldwide", "solutions", "holdings", "services", "limited", "company",
   "global", "group", "corp", "intl", "tech", "gmbh", "inc", "llc", "ltd",
   "plc", "llp", "pty", "co", "lp", "sa", "ag", "nv", "bv"]

/-- Characters kept by `re.sub(r'[^\w\s\&\.]', '', name)`. -/
def companyKeep (c : Char) : Bool :=
  isWordChar c || pyWs c || c = '&' || c = '.'

/-- Python `normalize_company_name` of `leadmatcher5000.py` on a (non-NaN) string,
as a `List Char` pipeline.  Each stage mirrors one statement of the source. -/
def normalize_company_nameL (cs : List Char) : List Char :=
  -- name = str(name).lower().strip(); name = re.sub(r'[^\w\s\&\.]', '', name)
  let s2 := (pyStripL (pyLowerL cs)).filter companyKeep
  -- name = re.sub(r'\s*\&\s*', ' & ', name)
  let s3 := ampSpace s2
  -- name = re.sub(r'^the\s+', '', name)
  let s4 := theStrip s3
  -- if 'qcr' in name.lower(): collapse and return immediately
  if containsSub s4 "qcr".data then
    pyStripL (qcrSub s4)
  else
    -- is_edu = any(keyword in name for keyword in edu_keywords)
    let is_edu := edu_keywords.any (fun k => containsSub s4 k.data)
    -- division / subsidiary phrases, in source order
    let s5 := phraseSub "division of".data s4
    let s5 := phraseSub "subsidiary of".data s5
    let s5 := phraseSub "part of".data s5
    let s5 := phraseSub "a division of".data s5
    let s5 := phraseSub "a subsidiary of".data s5
    -- token-by-token abbreviation expansion (words = name.split(); ' '.join)
    let s6 := joinSpace ((pySplit s5).map (fun w =>
      match abbrev_map.find? (fun p => p.1.data == w) with
      | some p => p.2.data
      | none => w))
    -- suffix stripping, unless educational
    let s7 := if is_edu then s6
              else suffixes_sorted.foldl (fun s suf => suffixSub suf.data s) s6
    -- whitespace / dot cleanup and strip(' .')
    pyStripCharsL [' ', '.'] (dotCollapse (wsCollapse s7))

/-- String wrapper for `normalize_company_name` (leadmatcher5000.py). -/
def normalize_company_name (s : String) : String :=
  ⟨normalize_company_nameL s.data⟩

/-- Reference pipeline for the educational exemption, following the SPECIFICATION
text "if an education keyword is present, never strip corporate suffixes": it is
`normalize_company_nameL` with the suffix-stripping stage removed and everything
else identical.  The claim compares the code's normalizer against it. -/
def normalize_company_nameL_noSuffix (cs : List Char) : List Char :=
  let s2 := (pyStripL (pyLowerL cs)).filter companyKeep
  let s3 := ampSpace s2
  let s4 := theStrip s3
  if containsSub s4 "qcr".data then
    pyStripL (qcrSub s4)
  else
    let s5 := phraseSub "division of".data s4
    let s5 := phraseSub "subsidiary of".data s5
    let s5 := phraseSub "part of".data s5
    let s5 := phraseSub "a division of".data s5
    let s5 := phraseSub "a subsidiary of".data s5
    let s6 := joinSpace ((pySplit s5).map (fun w =>
      match abbrev_map.find? (fun p => p.1.data == w) with
      | some p => p.2.data
      | none => w))
    pyStripCharsL [' ', '.'] (dotCollapse (wsCollapse s6))

/-- String wrapper for the suffix-free reference pipeline. -/
def normalize_company_name_noSuffix (s : String) : String :=
  ⟨normalize_company_nameL_noSuffix s.data⟩

/-- The honorific/suffix tokens of `normalize_person_name`. -/
def person_titles : List String :=
  ["dr", "mr", "mrs", "ms", "miss", "prof", "professor",
   "phd", "md", "mba", "esq", "cpa", "jr", "sr", "ii", "iii", "iv"]

/-- Python `normalize_person_name` of `leadmatcher5000.py` on a (non-NaN) string. -/
def normalize_person_nameL (cs : List Char) : List Char :=
  -- name = re.sub(r'[^\w\s\.]', '', str(name).lower()).strip()
  let s1 := pyStripL ((pyLowerL cs).filter (fun c => isWordChar c || pyWs c || c = '.'))
  -- for title in titles: strip leading then trailing occurrence
  let s2 := person_titles.foldl
    (fun s t => stripTrailWord t.data (stripLeadWord t.data s)) s1
  -- initials spacing, whitespace collapse, final strip
  pyStripL (wsCollapse (initialsSub s2))

/-- String wrapper for `normalize_person_name`. -/
def normalize_person_name (s : String) : String :=
  ⟨normalize_person_nameL s.data⟩

/-- The seniority/role table of `normalize_job_title` (`level_map`),
in insertion order. -/
def level_map : List (String × String) :=
  [("sr", "senior"), ("jr", "junior"), ("svp", "senior vice president"),
   ("vp", "vice president"), ("ceo", "chief executive officer"),
   ("cfo", "chief financial officer"), ("cto", "chief technology officer"),
   ("coo", "chief operating officer"), ("cio", "chief information officer"),
   ("cmo", "chief marketing officer"), ("pres", "president"),
   ("exec", "executive"), ("mgr", "manager"), ("dir", "director"),
   ("eng", "engineer"), ("dev", "developer")]

/-- The filler words removed by `normalize_job_title`. -/
def fillers : List String := ["of", "the", "and", "&", "for", "to", "in", "at"]

/-- Python `normalize_job_title` of `leadmatcher5000.py` on a (non-NaN) string. -/
def normalize_job_titleL (cs : List Char) : List Char :=
  let s1 := pyStripL (pyLowerL cs)
  let s2 := level_map.foldl (fun s p => wbSub p.1.data p.2.data none s) s1
  let s3 := fillers.foldl (fun s f => wbSub f.data [' '] none s) s2
  pyStripL (wsCollapse s3)

/-- String wrapper for `normalize_job_title`. -/
def normalize_job_title (s : String) : String :=
  ⟨normalize_job_titleL s.data⟩

/-! ## app.py : its own `normalize_company_name` -/

namespace App

/-- The suffix list of `app.py`'s `normalize_company_name`, in source order;
each is stripped once, by an `endswith` test. -/
def app_suffixes : List String :=
  [" inc", " inc.", " incorporated", " llc", " ltd", " limited",
   " corp", " corp.", " corporation"]

/-- Strip one trailing occurrence of `suf` if the string ends with it
(`name[:-len(suffix)]`). -/
def dropSuffixIf (suf : List Char) (cs : List Char) : List Char :=
  match dropPrefixQ suf.reverse cs.reverse with
  | some rest => rest.reverse
  | none => cs

/-- Python `normalize_company_name` of `app.py`: lower-case, strip the suffix list by
`endswith` (each once, in order), remove punctuation (`[^\w\s]`), collapse
whitespace, strip.  Non-string input (NaN) is handled by the caller model. -/
def normalize_company_nameL (cs : List Char) : List Char :=
  let s1 := pyLowerL cs
  let s2 := app_suffixes.foldl (fun s suf => dropSuffixIf suf.data s) s1
  let s3 := s2.filter (fun c => isWordChar c || pyWs c)
  pyStripL (wsCollapse s3)

/-- String wrapper for `app.py`'s `normalize_company_name`. -/
def normalize_company_name (s : String) : String :=
  ⟨normalize_company_nameL s.data⟩

end App

/-! ## The similarity provider: fuzzywuzzy on its pure-Python difflib backend

`difflib.SequenceMatcher` with `isjunk=None`; the autojunk heuristic only
acts on second strings of length ≥ 200, which never occur here, and the two
junk-extension loops of `find_longest_match` are no-ops when the junk set is
empty, so neither is modelled. -/

/-- Lookup in a `j2len` association list, with `dict.get(j, 0)` semantics. -/
def j2get (l : List (Nat × Nat)) (j : Nat) : Nat :=
  match l.find? (fun p => p.1 == j) with
  | some p => p.2
  | none => 0

/-- One row of `find_longest_match`'s dynamic program: `st` carries the
current best block and the previous row's `j2len` dict. -/
def flmRow (a b : List Char) (blo bhi : Nat)
    (st : ((Nat × Nat × Nat) × List (Nat × Nat))) (i : Nat) :
    ((Nat × Nat × Nat) × List (Nat × Nat)) :=
  let ch := a.getD i ' '
  let js := (List.range b.length).filter
    (fun j => decide (blo ≤ j) && decide (j < bhi) && (b.getD j ' ' == ch))
  let kOf : Nat → Nat := fun j => (if j = 0 then 0 else j2get st.2 (j - 1)) + 1
  let best := js.foldl (fun bst j =>
      let k := kOf j
      if k > bst.2.2 then (i + 1 - k, j + 1 - k, k) else bst) st.1
  (best, js.map (fun j => (j, kOf j)))

/-- Python `SequenceMatcher.find_longest_match(alo, ahi, blo, bhi)` (no junk):
returns `(besti, bestj, bestsize)`. -/
def flm (a b : List Char) (alo ahi blo bhi : Nat) : Nat × Nat × Nat :=
  ((List.range' alo (ahi - alo)).foldl (flmRow a b blo bhi) ((alo, blo, 0), [])).1

/-- Proof-side model of the `j2len` dictionary of `find_longest_match` when both
strings are the same list `s`: `flmDiag s m j` is the value the dictionary holds
for column `j` after the first `m` rows have been processed. -/
def flmDiag (s : List Char) : Nat → Nat → Nat
  | 0, _ => 0
  | m + 1, j =>
    if s.getD j ' ' = s.getD m ' ' ∧ j < s.length then
      (if j = 0 then 0 else flmDiag s m (j - 1)) + 1
    else 0

/-- The recursive block collection of `get_matching_blocks` (difflib uses an
explicit queue and sorts afterwards; in-order recursion yields the same sorted
list).  `fuel` only bounds the recursion depth; the top-level call supplies
more than enough. -/
def mbAux (a b : List Char) : Nat → Nat → Nat → Nat → Nat → List (Nat × Nat × Nat)
  | 0, _, _, _, _ => []
  | fuel + 1, alo, ahi, blo, bhi =>
    let r := flm a b alo ahi blo bhi
    if r.2.2 = 0 then []
    else mbAux a b fuel alo r.1 blo r.2.1 ++
      r :: mbAux a b fuel (r.1 + r.2.2) ahi (r.2.1 + r.2.2) bhi

/-- difflib's merging of adjacent blocks in `get_matching_blocks`. -/
def mergeAdjacent (blocks : List (Nat × Nat × Nat)) : List (Nat × Nat × Nat) :=
  let st := blocks.foldl
    (fun (st : (Nat × Nat × Nat) × List (Nat × Nat × Nat)) blk =>
      if st.1.1 + st.1.2.2 = blk.1 ∧ st.1.2.1 + st.1.2.2 = blk.2.1 then
        ((st.1.1, st.1.2.1, st.1.2.2 + blk.2.2), st.2)
      else
        (blk, if st.1.2.2 ≠ 0 then st.2 ++ [st.1] else st.2))
    ((0, 0, 0), [])
  if st.1.2.2 ≠ 0 then st.2 ++ [st.1] else st.2

/-- Python `SequenceMatcher.get_matching_blocks()`, including the terminal
`(len(a), len(b), 0)` block. -/
def get_matching_blocks (a b : List Char) : List (Nat × Nat × Nat) :=
  mergeAdjacent (mbAux a b (a.length + b.length + 1) 0 a.length 0 b.length) ++
    [(a.length, b.length, 0)]

/-- Total number of matched characters (`sum of block sizes`). -/
def matchedSum (a b : List Char) : Nat :=
  (get_matching_blocks a b).foldl (fun s blk => s + blk.2.2) 0

/-- Python `int(round(num/den))`: round half to even on the exact rational. -/
def pyRound2 (num den : Nat) : Nat :=
  let q := num / den
  let r := num % den
  if 2 * r < den then q
  else if den < 2 * r then q + 1
  else if q % 2 = 0 then q else q + 1

/-- Python `utils.intr(100 * m.ratio())` where `ratio = 2*M/T` (T = 0 gives 1.0). -/
def ratioScoreN (m t : Nat) : Nat :=
  if t = 0 then 100 else pyRound2 (200 * m) t

/-- Python `fuzz.ratio` (`@check_empty_string` returns 0 on an empty argument). -/
def fuzz_ratio (s1 s2 : List Char) : Nat :=
  if s1.isEmpty || s2.isEmpty then 0
  else ratioScoreN (matchedSum s1 s2) (s1.length + s2.length)

/-- Python `fuzz.partial_ratio`: align the shorter string against each matching-block
window of the longer one, early-out at ratio > .995 (exact rational test; for
the short strings that occur here the float and rational tests agree). -/
def fuzz_partial_ratio (s1 s2 : List Char) : Nat :=
  if s1.isEmpty || s2.isEmpty then 0
  else
    let sl := if s1.length ≤ s2.length then (s1, s2) else (s2, s1)
    let shorter := sl.1
    let longer := sl.2
    let scores := (get_matching_blocks shorter longer).map (fun blk =>
      let ls := if blk.1 < blk.2.1 then blk.2.1 - blk.1 else 0
      let sub := (longer.drop ls).take shorter.length
      (matchedSum shorter sub, shorter.length + sub.length))
    if scores.any (fun p => 199 * p.2 < 400 * p.1) then 100
    else (scores.map (fun p => ratioScoreN p.1 p.2)).foldl max 0

/-- Python `utils.full_process(s, force_ascii=True)`: drop non-ASCII, replace
non-word characters by spaces, lower-case, strip. -/
def full_process (s : List Char) : List Char :=
  pyStripL (pyLowerL ((s.filter (fun c => c.toNat < 128)).map
    (fun c => if isWordChar c then c else ' ')))

/-- Python string `<` (lexicographic by code point). -/
def lexLt : List Char → List Char → Bool
  | [], [] => false
  | [], _ :: _ => true
  | _ :: _, [] => false
  | x :: xs, y :: ys => if x = y then lexLt xs ys else decide (x < y)

/-- Insert into a sorted token list (`sorted`, ascending, stable). -/
def insSorted (x : List Char) : List (List Char) → List (List Char)
  | [] => [x]
  | y :: ys => if lexLt x y then x :: y :: ys else y :: insSorted x ys

/-- Python `sorted` on tokens. -/
def sortTokens : List (List Char) → List (List Char)
  | [] => []
  | x :: xs => insSorted x (sortTokens xs)

/-- Remove adjacent duplicates of a sorted list (so that
`sortTokens ∘ dedupSorted ∘ sortTokens` is `sorted(set(...))`). -/
def dedupSorted : List (List Char) → List (List Char)
  | [] => []
  | [x] => [x]
  | x :: y :: ys => if x = y then dedupSorted (y :: ys) else x :: dedupSorted (y :: ys)

/-- Python `utils.process_and_sort`: full-process, split, sort, join, strip. -/
def process_and_sort (s : List Char) : List Char :=
  pyStripL (joinSpace (sortTokens (pySplit (full_process s))))

/-- Python `fuzz.token_sort_ratio`. -/
def token_sort_ratio (s1 s2 : List Char) : Nat :=
  fuzz_ratio (process_and_sort s1) (process_and_sort s2)

/-- Python `fuzz.token_set_ratio`. -/
def token_set_ratio (s1 s2 : List Char) : Nat :=
  let p1 := full_process s1
  let p2 := full_process s2
  if p1.isEmpty || p2.isEmpty then 0
  else
    let w1 := pySplit p1
    let w2 := pySplit p2
    let inter := dedupSorted (sortTokens (w1.filter (fun w => w2.contains w)))
    let d12 := dedupSorted (sortTokens (w1.filter (fun w => !w2.contains w)))
    let d21 := dedupSorted (sortTokens (w2.filter (fun w => !w1.contains w)))
    let sect := joinSpace inter
    let c12 := pyStripL (sect ++ [' '] ++ joinSpace d12)
    let c21 := pyStripL (sect ++ [' '] ++ joinSpace d21)
    let t0 := pyStripL sect
    max (fuzz_ratio t0 c12) (max (fuzz_ratio t0 c21) (fuzz_ratio c12 c21))

/-- Python `process.extractOne(query, choices, scorer=fuzz.token_sort_ratio)` with the
default processor and zero score cutoff: the query is full-processed once, each
choice is scored raw (the scorer full-processes internally), the best strictly
greater score wins, ties keep the earliest choice.  `none` models the `None`
return on an empty choice list. -/
def extractOne (query : List Char) (choices : List (List Char)) :
    Option (List Char × Nat) :=
  let pq := full_process query
  match choices with
  | [] => none
  | c :: cs => some (cs.foldl (fun best ch =>
      let sc := token_sort_ratio pq ch
      if sc > best.2 then (ch, sc) else best) (c, token_sort_ratio pq c))

/-! ## Data model: contacts, rows, thresholds -/

/-- The five-valued threshold set (settings `thresholds` dict). -/
structure Thresholds where
  company_name : Nat
  person_name : Nat
  email : Nat
  title : Nat
  department : Nat

/-- The default thresholds (85, 85, 100, 70, 70). -/
def default_thresholds : Thresholds := ⟨85, 85, 100, 70, 70⟩

/-- A plain Python dict of strings (the contact records handled by
`find_person_matches` and the standardized `contact_data`). -/
abbrev Contact := List (String × String)

/-- Python `d.get(key, '')`. -/
def dictGet (r : Contact) (k : String) : String :=
  match r.find? (fun p => p.1 == k) with
  | some p => p.2
  | none => ""

/-- Python `safe_get_column(row, name)` for a plain dict (no column mapping):
`str(value).lower()` with `''` as default. -/
def safe_get_column (r : Contact) (k : String) : String :=
  ⟨pyLowerL (dictGet r k).data⟩

/-- One dataframe cell lookup: `none` when the column is absent from the row,
`some none` for a present NaN cell, `some (some v)` for a value. -/
abbrev Row := List (String × Option String)

/-- Python `col in row` (pandas Series membership tests the index, i.e. columns). -/
def rowHas (r : Row) (k : String) : Bool := (r.find? (fun p => p.1 == k)).isSome

/-- The raw cell, `none` meaning absent-or-NaN. -/
def rowVal (r : Row) (k : String) : Option String :=
  match r.find? (fun p => p.1 == k) with
  | some p => p.2
  | none => none

/-- Python `f"{row.get(col, '')}"`: a NaN cell formats as `"nan"`. -/
def rowGetStr (r : Row) (k : String) : String :=
  match r.find? (fun p => p.1 == k) with
  | none => ""
  | some p => match p.2 with
    | none => "nan"
    | some v => v

/-! ## leadmatcher5000.py : `get_person_key` -/

/-- The composite key dict built by `get_person_key`. -/
structure PersonKey where
  last_name : String
  first_name : String
  job_title : String
  linkedin : String
  email_name : String

/-- Python `str.split(',')` (keeps empty parts). -/
def splitOnComma (cs : List Char) : List (List Char) := cs.splitOn ','

/-- Python `re.sub(r'^(info|contact|admin|support|sales)', '', s)`: drop one
role prefix, alternatives tried left to right. -/
def stripRolePrefix (cs : List Char) : List Char :=
  match dropPrefixQ "info".data cs with
  | some r => r
  | none =>
    match dropPrefixQ "contact".data cs with
    | some r => r
    | none =>
      match dropPrefixQ "admin".data cs with
      | some r => r
      | none =>
        match dropPrefixQ "support".data cs with
        | some r => r
        | none =>
          match dropPrefixQ "sales".data cs with
          | some r => r
          | none => cs

/-- Python `get_person_key(row)` (no column mapping, as called by
`find_person_matches`). -/
def get_person_key (row : Contact) : PersonKey :=
  let last0 := safe_get_column row "Last Name"
  let first0 := safe_get_column row "First Name"
  let email := safe_get_column row "Email Address"
  -- "LastName, FirstName" and "First Middle Last" handling
  let fl :=
    if first0 ≠ "" ∧ first0.data.contains ',' then
      let parts := splitOnComma first0.data
      if parts.length = 2 then
        ((⟨pyStripL (parts.getD 1 [])⟩ : String), (⟨pyStripL (parts.getD 0 [])⟩ : String))
      else (first0, last0)
    else if first0 ≠ "" ∧ first0.data.contains ' ' then
      let parts := pySplit first0.data
      if 2 ≤ parts.length then
        if containsSub (pyLowerL last0.data) (pyLowerL (parts.getD 1 [])) then
          ((⟨parts.getD 0 []⟩ : String), last0)
        else
          ((⟨parts.getD 0 []⟩ : String),
           (⟨joinSpace (parts.drop 1) ++ ' ' :: last0.data⟩ : String))
      else (first0, last0)
    else (first0, last0)
  let email_name : String :=
    if email ≠ "" ∧ email.data.contains '@' then
      let l0 := pyLowerL (email.data.takeWhile (fun c => c ≠ '@'))
      let l1 := stripRolePrefix l0
      let l2 := l1.filter (fun c => !isAsciiDigit c)
      ⟨l2.filter (fun c => isWordChar c || pyWs c)⟩
    else ""
  { last_name := normalize_person_name fl.2
    first_name := normalize_person_name fl.1
    job_title := normalize_job_title (safe_get_column row "Position")
    linkedin := ⟨pyStripL (pyLowerL (safe_get_column row "URL").data)⟩
    email_name := email_name }

/-- Python `str(key_dict)`: the Python `str()` of the key dict that
`find_person_matches` feeds to the fuzz scorers (fuzzywuzzy coerces non-string
arguments with `str`/`asciidammit`).  Models `repr` of values that contain no
quotes or backslashes, which is all that ever reaches it here. -/
def personKeyRepr (k : PersonKey) : String :=
  "\x7b'last_name': '" ++ k.last_name ++ "', 'first_name': '" ++ k.first_name ++
  "', 'job_title': '" ++ k.job_title ++ "', 'linkedin': '" ++ k.linkedin ++
  "', 'email_name': '" ++ k.email_name ++ "'\x7d"

/-! ## leadmatcher5000.py : `find_person_matches` -/

/-- Python `max` of the three fuzz scores in the order used by the source. -/
def fuzzMax3 (x y : List Char) : Nat :=
  max (token_sort_ratio x y) (max (token_set_ratio x y) (fuzz_partial_ratio x y))

/-- Python `input_nicknames`: aliases are tried only when the input first name is
exactly `"william"`. -/
def input_nicknames (first : String) : List String :=
  if first = "william" then ["will", "bill", "billy"] else [first]

/-- Python `target_nicknames`: aliases are tried only when the target first name is
exactly `"robert"`. -/
def target_nicknames (first : String) : List String :=
  if first = "robert" then ["rob", "bob", "bobby"] else [first]

/-- All (input alias, target alias) combinations scanned by the nickname
loop, outer loop over the input side. -/
def nickname_pairs (input_first target_first : String) : List (String × String) :=
  (input_nicknames input_first).flatMap
    (fun i => (target_nicknames target_first).map (fun t => (i, t)))

/-- The body of the inner loop of `find_person_matches` for one
(input, target) pair: `none` when the pair is skipped (an empty normalized
company, or a company score below the company threshold), otherwise the final
name score after the nickname and exact-email adjustments. -/
def pairScore (tc tp : Nat) (input_contact target_contact : Contact) : Option Nat :=
  let input_company := normalize_company_name (dictGet input_contact "company")
  let target_company := normalize_company_name (dictGet target_contact "company")
  if input_company = "" ∨ target_company = "" then none
  else
    let company_score := fuzzMax3 input_company.data target_company.data
    if company_score < tc then none
    else
      let input_key := get_person_key input_contact
      let target_key := get_person_key target_contact
      let ns0 := fuzzMax3 (personKeyRepr input_key).data (personKeyRepr target_key).data
      let ns1 :=
        if ns0 < tp then
          let input_first : String := ⟨pyLowerL (dictGet input_contact "first_name").data⟩
          let target_first : String := ⟨pyLowerL (dictGet target_contact "first_name").data⟩
          (nickname_pairs input_first target_first).foldl (fun ns pr =>
            let nick_key := pr.1 ++ " " ++ dictGet input_contact "last_name"
            let target_nick_key := pr.2 ++ " " ++ dictGet target_contact "last_name"
            max ns (fuzzMax3 nick_key.data target_nick_key.data)) ns0
        else ns0
      let input_email := dictGet input_contact "email"
      let target_email := dictGet target_contact "email"
      let ns2 :=
        if input_email ≠ "" ∧ target_email ≠ "" then
          if fuzz_ratio (pyLowerL input_email.data) (pyLowerL target_email.data) = 100 then
            max ns1 (tp + 10)
          else ns1
        else ns1
      some ns2

/-- One accepted person match. -/
structure PersonMatch where
  input_contact : Contact
  target_contact : Contact
  score : Nat

deriving instance DecidableEq for PersonMatch

/-- The inner loop of `find_person_matches`: best accepted target for one
input contact (`name_score >= person threshold` and strictly better than the
best so far; the best score starts at 0). -/
def bestTargetFor (tc tp : Nat) (input_contact : Contact) (targets : List Contact) :
    Option PersonMatch :=
  (targets.foldl (fun (st : Nat × Option PersonMatch) t =>
    match pairScore tc tp input_contact t with
    | none => st
    | some s =>
      if tp ≤ s ∧ st.1 < s then (s, some ⟨input_contact, t, s⟩) else st) (0, none)).2

/-- Python `find_person_matches` over the two threshold values it reads. -/
def find_person_matches_core (tc tp : Nat) (inputs targets : List Contact) :
    List PersonMatch :=
  inputs.foldl (fun acc i =>
    match bestTargetFor tc tp i targets with
    | none => acc
    | some m => acc ++ [m]) []

/-- Python `find_person_matches(input_contacts, target_contacts, thresholds)`: only
`thresholds['company_name']` and `thresholds['person_name']` are ever read. -/
def find_person_matches (inputs targets : List Contact) (th : Thresholds) :
    List PersonMatch :=
  find_person_matches_core th.company_name th.person_name inputs targets

/-! ## leadmatcher5000.py : `find_matches` (the file-level version that is in
scope at runtime; its dataframe core after the CSV reads, lines 727-841) -/

/-- The fixed column preference list for company values. -/
def company_cols : List String := ["Company", "Company Name", "Company Division Name"]

/-- First present non-NaN company cell, in preference order (the `break`
means an empty string in an earlier column still wins and is then discarded
by the `if not target_company` test). -/
def rowCompany (r : Row) : Option String :=
  company_cols.foldl (fun acc col =>
    match acc with
    | some _ => acc
    | none =>
      match r.find? (fun p => p.1 == col) with
      | some p => match p.2 with
        | some v => some v
        | none => none
      | none => none) none

/-- A usable (truthy) company value for a row. -/
def usableCompany (r : Row) : Option String :=
  match rowCompany r with
  | some c => if c = "" then none else some c
  | none => none

/-- Python `field_mapping`: source field → standardized contact field. -/
def field_mapping : List (String × String) :=
  [("First Name", "First Name"), ("Last Name", "Last Name"),
   ("Email Address", "Email Address"), ("Position", "Job Title"),
   ("Company", "Company"), ("URL", "LinkedIn"), ("Connected On", "Connected On")]

/-- Build `contact_data`: copy each mapped field present in the source row,
NaN becoming `''`, other values `str(value).strip()`. -/
def buildContactData (source_row : Row) : Contact :=
  field_mapping.foldl (fun acc p =>
    match source_row.find? (fun q => q.1 == p.1) with
    | none => acc
    | some q => acc ++ [(p.2, match q.2 with
        | none => ""
        | some v => (⟨pyStripL v.data⟩ : String))]) []

/-- The `person_match` flag of `find_matches`: name, exact-email and title
signals tried in that order, any one sufficing. -/
def personMatchFlag (tp tt : Nat) (target_row source_row : Row) : Bool :=
  let source_name := normalize_person_name
    (rowGetStr source_row "First Name" ++ " " ++ rowGetStr source_row "Last Name")
  let target_name := normalize_person_name
    (rowGetStr target_row "First Name" ++ " " ++ rowGetStr target_row "Last Name")
  if source_name ≠ "" ∧ target_name ≠ "" ∧
      tp ≤ token_sort_ratio source_name.data target_name.data then true
  else if rowHas source_row "Email Address" && rowHas target_row "Email Address" then
    let se := match rowVal source_row "Email Address" with
      | some v => pyStripL (pyLowerL v.data)
      | none => []
    let te := match rowVal target_row "Email Address" with
      | some v => pyStripL (pyLowerL v.data)
      | none => []
    if se ≠ [] ∧ te ≠ [] ∧ se = te then true
    else titleFlag
  else titleFlag
where
  titleFlag : Bool :=
    if rowHas source_row "Position" && rowHas target_row "Job Title" then
      let st := match rowVal source_row "Position" with
        | some v => normalize_job_title v
        | none => ""
      let tj := match rowVal target_row "Job Title" with
        | some v => normalize_job_title v
        | none => ""
      decide (st ≠ "" ∧ tj ≠ "" ∧ tt ≤ token_sort_ratio st.data tj.data)
    else false

/-- A contact payload of a roster entry: the standardized fields together
with the `has_person_match` flag. -/
structure ContactPayload where
  fields : Contact
  has_person_match : Bool

deriving instance DecidableEq for ContactPayload

/-- Python `contact_key = f"{First Name}-{Last Name}-{Email Address}"` — note: built
from the raw-cased field values, with no lower-casing. -/
def contactKey (cd : Contact) : String :=
  dictGet cd "First Name" ++ "-" ++ dictGet cd "Last Name" ++ "-" ++
    dictGet cd "Email Address"

/-- Python dict assignment `d[k] = v`: replace in place if the key exists
(keeping its position), else append. -/
def dictUpsert (m : List (String × α)) (k : String) (v : α) : List (String × α) :=
  if m.any (fun p => p.1 == k) then
    m.map (fun p => if p.1 == k then (k, v) else p)
  else m ++ [(k, v)]

/-- The `contact_dict` accumulated over all source rows for one target row. -/
def contactsForTarget (tc tp tt : Nat) (target_row : Row) (target_norm : String)
    (source_rows : List Row) : List (String × ContactPayload) :=
  source_rows.foldl (fun cd source_row =>
    match usableCompany source_row with
    | none => cd
    | some source_company =>
      let source_norm := normalize_company_name source_company
      if source_norm = "" then cd
      else if tc ≤ token_sort_ratio target_norm.data source_norm.data then
        let contact_data := buildContactData source_row
        let pm := personMatchFlag tp tt target_row source_row
        dictUpsert cd (contactKey contact_data) ⟨contact_data, pm⟩
      else cd) []

/-- One step of the outer target-row loop, updating the `company_matches`
dict keyed by the normalized target company. -/
def fmStep (tc tp tt : Nat) (source_rows : List Row)
    (acc : List (String × (String × List ContactPayload))) (target_row : Row) :
    List (String × (String × List ContactPayload)) :=
  match usableCompany target_row with
  | none => acc
  | some target_company =>
    let target_norm := normalize_company_name target_company
    if target_norm = "" then acc
    else
      let contact_dict := contactsForTarget tc tp tt target_row target_norm source_rows
      if contact_dict.isEmpty then acc
      else
        match acc.find? (fun p => p.1 == target_norm) with
        | some p =>
          let existing_dict := p.2.2.foldl
            (fun d c => dictUpsert d (contactKey c.fields) c) []
          let merged := contact_dict.foldl (fun d kc => dictUpsert d kc.1 kc.2)
            existing_dict
          let final_name :=
            if p.2.1.length < target_company.length then target_company else p.2.1
          dictUpsert acc target_norm (final_name, merged.map (·.2))
        | none => acc ++ [(target_norm, (target_company, contact_dict.map (·.2)))]

/-- A finished roster entry `(target_norm, company_name, contacts)`. -/
abbrev RosterEntry := String × String × List ContactPayload

/-- Stable insertion into a list sorted by lower-cased display name
(`sorted(..., key=lambda x: x[1].lower())`). -/
def insByDisplay (x : RosterEntry) : List RosterEntry → List RosterEntry
  | [] => [x]
  | y :: ys =>
    if lexLt (pyLowerL y.2.1.data) (pyLowerL x.2.1.data) then y :: insByDisplay x ys
    else x :: y :: ys

/-- Stable sort of roster entries by lower-cased display name. -/
def sortByDisplay : List RosterEntry → List RosterEntry
  | [] => []
  | x :: xs => insByDisplay x (sortByDisplay xs)

/-- The dataframe core of `find_matches(input_file, target_file, thresholds)`
(everything after the CSV reads), over the three threshold values it reads. -/
def find_matches_core (tc tp tt : Nat) (target_rows source_rows : List Row) :
    List RosterEntry :=
  sortByDisplay ((target_rows.foldl (fmStep tc tp tt source_rows) []).map
    (fun p => (p.1, p.2.1, p.2.2)))

/-- Python `find_matches` as a function of the full threshold set: only
`company_name`, `person_name` and `title` are ever read. -/
def find_matches (target_rows source_rows : List Row) (th : Thresholds) :
    List RosterEntry :=
  find_matches_core th.company_name th.person_name th.title target_rows source_rows

/-! ## app.py : `match_companies` -/

namespace App

/-- A dataframe: its column list plus its rows. -/
structure DF where
  cols : List String
  rows : List Row

/-- Python `next((col for col in cols if col in ["Company", "Company Name"]), None)`. -/
def colDetect (cols : List String) : Option String :=
  cols.find? (fun c => c == "Company" || c == "Company Name")

/-- Python `normalize_company_name` applied to a cell (non-strings give `""`). -/
def normOpt (v : Option String) : String :=
  match v with
  | some s => normalize_company_name s
  | none => ""

/-- One company match dict produced by `match_companies`. -/
structure CompanyMatch where
  ideal_idx : Nat
  source_idx : Nat
  ideal_company : Option String
  source_company : Option String
  score : Nat

deriving instance DecidableEq for CompanyMatch

/-- Python `match_companies(ideal_df, source_df, company_threshold, column_mapping)`.
The `column_mapping` argument is only echoed to the UI and never used by the
matching logic, so it is not modelled.  The result is `none` exactly when the
Python function would raise (`process.extractOne` returning `None` on an empty
ideal list, or the `[...][0]` index lookup failing), which cannot happen in
the situations the claims are about. -/
def match_companies (ideal source : DF) (company_threshold : Nat) :
    Option (List CompanyMatch) :=
  match colDetect source.cols with
  | none => some []
  | some source_col =>
    match colDetect ideal.cols with
    | none => some []
    | some ideal_col =>
      let ideal_norms := ideal.rows.map (fun r => normOpt (rowVal r ideal_col))
      (source.rows.enum.foldl (fun acc p =>
        match acc with
        | none => none
        | some ms =>
          let source_company := normOpt (rowVal p.2 source_col)
          if source_company = "" then some ms
          else
            match extractOne source_company.data (ideal_norms.map (·.data)) with
            | none => none
            | some best =>
              if company_threshold ≤ best.2 then
                match (ideal_norms.enum.find? (fun q => q.2.data == best.1)) with
                | some q =>
                  some (ms ++ [(⟨q.1, p.1, rowVal (ideal.rows.getD q.1 []) ideal_col,
                    rowVal p.2 source_col, best.2⟩ : CompanyMatch)])
                | none => none
              else some ms) (some []))

end App



/-! ## Concrete scenarios used by the claim theorems -/

/-- Target rows for the case-sensitivity scenario: one company row. -/
def c6_target : List Row := [[("Company", some "Acme")]]

/-- Source rows for the case-sensitivity scenario: two contacts whose
first/last/email values differ only in letter case. -/
def c6_source : List Row :=
  [[("Company", some "Acme"), ("First Name", some "Jane"),
    ("Last Name", some "Doe"), ("Email Address", some "j@a.co")],
   [("Company", some "Acme"), ("First Name", some "JANE"),
    ("Last Name", some "DOE"), ("Email Address", some "J@A.CO")]]

/-- The single-company ideal dataframe of the duplicate-key scenario. -/
def c3_ideal : App.DF := ⟨["Company"], [[("Company", some "Acme")]]⟩

/-- The source dataframe of the duplicate-key scenario: two rows with the
same company string. -/
def c3_source : App.DF :=
  ⟨["Company"], [[("Company", some "Acme")], [("Company", some "Acme")]]⟩

/-- Company-gate rows: normalized names "acme x" / "acme y" score 83. -/
def c8_company_target : List Row := [[("Company", some "acme x")]]

/-- Company-gate source row. -/
def c8_company_source : List Row :=
  [[("Company", some "acme y"), ("First Name", some "Jo"), ("Last Name", some "Li")]]

/-- Person-gate rows: names "ann box" / "ann cox" score 86. -/
def c8_person_target : List Row :=
  [[("Company", some "Acme"), ("First Name", some "Ann"), ("Last Name", some "Box")]]

/-- Person-gate source row. -/
def c8_person_source : List Row :=
  [[("Company", some "Acme"), ("First Name", some "Ann"), ("Last Name", some "Cox")]]

/-- Title-gate rows: titles "alpha bb" / "alpha cc" score 75. -/
def c8_title_target : List Row :=
  [[("Company", some "Acme"), ("Job Title", some "alpha bb")]]

/-- Title-gate source row. -/
def c8_title_source : List Row :=
  [[("Company", some "Acme"), ("Position", some "alpha cc")]]

/-- Email-boost scenario: a source contact with a company and an email. -/
def c5_input : Contact := [("company", "Acme"), ("email", "p@q.r")]

/-- Email-boost scenario: a target contact whose email equals the source one
up to letter case. -/
def c5_target : Contact := [("company", "Acme"), ("email", "P@Q.R")]

/-- A source row whose company does not resemble "Acme" (used to show that a
target with no qualifying source row produces no roster entry). -/
def zeta_source : List Row :=
  [[("Company", some "Zeta"), ("First Name", some "C"), ("Last Name", some "D")]]


/-- Replace only the `company_name` threshold. -/
def setCompany (t : Thresholds) (v : Nat) : Thresholds :=
  ⟨v, t.person_name, t.email, t.title, t.department⟩

/-- Replace only the `person_name` threshold. -/
def setPerson (t : Thresholds) (v : Nat) : Thresholds :=
  ⟨t.company_name, v, t.email, t.title, t.department⟩

/-- Replace only the `email` threshold. -/
def setEmail (t : Thresholds) (v : Nat) : Thresholds :=
  ⟨t.company_name, t.person_name, v, t.title, t.department⟩

/-- Replace only the `title` threshold. -/
def setTitle (t : Thresholds) (v : Nat) : Thresholds :=
  ⟨t.company_name, t.person_name, t.email, v, t.department⟩

/-- Replace only the `department` threshold. -/
def setDepartment (t : Thresholds) (v : Nat) : Thresholds :=
  ⟨t.company_name, t.person_name, t.email, t.title, v⟩

/-- The combined matching output of the two engine functions the claim about
threshold gating cites (`find_person_matches` and `find_matches`). -/
def engineOutput (pmi pmt : List Contact) (tgt src : List Row) (th : Thresholds) :
    List PersonMatch × List RosterEntry :=
  (find_person_matches pmi pmt th, find_matches tgt src th)

/-- The statement that a given threshold field gates the engine's output:
some inputs and two threshold sets differing only in that field produce
different outputs. -/
def fieldGates (set : Thresholds → Nat → Thresholds) : Prop :=
  ∃ pmi pmt tgt src th v,
    engineOutput pmi pmt tgt src (set th v) ≠ engineOutput pmi pmt tgt src th

/-- The C8 claim: each of the five thresholds gates acceptance for its own
signal. -/
def claimC8 : Prop :=
  fieldGates setCompany ∧ fieldGates setPerson ∧ fieldGates setEmail ∧
    fieldGates setTitle ∧ fieldGates setDepartment

/-! ## Basic lemmas about the string scanners

The `*_length` lemmas show that every matcher consumes at least one character,
which is why the `length + 1` fuel supplied to each scanner can never run
out. -/

theorem dropPrefixQ_length {w cs r : List Char} (h : dropPrefixQ w cs = some r) :
    r.length + w.length = cs.length := by
  induction w generalizing cs with
  | nil => simp [dropPrefixQ] at h; simp [h]
  | cons a w ih =>
    cases cs with
    | nil => simp [dropPrefixQ] at h
    | cons c cs =>
      simp only [dropPrefixQ] at h
      split at h
      · have := ih h; simp [List.length_cons]; omega
      · exact absurd h (by simp)

theorem length_dropWhile_le' (p : Char → Bool) (l : List Char) :
    (l.dropWhile p).length ≤ l.length :=
  (List.dropWhile_suffix p).length_le

theorem dropPrefixQ_isSome_of_prefix :
    ∀ u v : List Char, u <+: v → (dropPrefixQ u v).isSome := by
  intro u
  induction u with
  | nil => intro v _; simp [dropPrefixQ]
  | cons a u ihu =>
    intro v hv
    cases v with
    | nil => simp at hv
    | cons b v =>
      rcases hv with ⟨t, ht⟩
      simp only [List.cons_append, List.cons.injEq] at ht
      simp [dropPrefixQ, ht.1, ihu v ⟨t, ht.2⟩]

theorem containsSub_of_infix {cs w : List Char} (h : w <:+: cs) :
    containsSub cs w = true := by
  induction cs with
  | nil =>
    have hw : w = [] := List.eq_nil_of_infix_nil h
    simp [hw, containsSub, dropPrefixQ]
  | cons c cs ih =>
    rcases (List.infix_cons_iff).mp h with hpre | hinf
    · simp [containsSub, dropPrefixQ_isSome_of_prefix _ _ hpre]
    · simp [containsSub, ih hinf]

theorem matchAmpAt_length : ∀ cs r, matchAmpAt cs = some r → r.length < cs.length := by
  intro cs r h
  unfold matchAmpAt at h
  split at h
  · rename_i rest heq
    have h1 : rest.length < cs.length := by
      have h2 : ('&' :: rest).length ≤ cs.length := heq ▸ length_dropWhile_le' pyWs cs
      simp at h2; omega
    have h3 : (rest.dropWhile pyWs).length ≤ rest.length := length_dropWhile_le' pyWs rest
    simp only [Option.some.injEq] at h
    subst h
    omega
  · exact absurd h (by simp)

theorem matchQcrAt_length : ∀ cs r, matchQcrAt cs = some r → r.length < cs.length := by
  intro cs r h
  unfold matchQcrAt at h
  split at h
  · exact absurd h (by simp)
  · rename_i r1 h1
    have hl1 : r1.length + 3 = cs.length := dropPrefixQ_length h1
    split at h
    · exact absurd h (by simp)
    · rename_i r3 h3
      dsimp only at h
      simp only [Option.some.injEq] at h
      have hl2 : (r1.dropWhile pyWs).length ≤ r1.length := length_dropWhile_le' pyWs r1
      have hl3 : r3.length + 7 = (r1.dropWhile pyWs).length := dropPrefixQ_length h3
      have hr4 : (match r3 with | 's' :: t => t | _ => r3).length ≤ r3.length := by
        cases r3 with
        | nil => simp
        | cons a t =>
          by_cases ha : a = 's'
          · subst ha; simp
          · rw [show (match a :: t with | 's' :: t => t | _ => a :: t) = a :: t by
              cases t <;> simp_all [ha]]
      set r4 := (match r3 with | 's' :: t => t | _ => r3) with hr4d
      have hl5 : (r4.dropWhile pyWs).length ≤ r4.length := length_dropWhile_le' pyWs r4
      set r5 := r4.dropWhile pyWs with hr5d
      cases h6 : dropPrefixQ [ 'i', 'n', 'c' ] r5 with
      | none =>
        rw [h6] at h
        simp only [Option.getD_none] at h
        subst h
        omega
      | some r6 =>
        rw [h6] at h
        have h7 := dropPrefixQ_length h6
        simp only [Option.getD_some] at h
        subst h
        simp only [List.length_cons, List.length_nil] at h7
        omega

theorem matchPhraseAt_length (phrase : List Char) (hp : phrase ≠ []) :
    ∀ cs r, matchPhraseAt phrase cs = some r → r.length < cs.length := by
  intro cs r h
  unfold matchPhraseAt at h
  cases h1 : dropPrefixQ phrase (cs.dropWhile pyWs) with
  | none => rw [h1] at h; exact absurd h (by simp)
  | some r1 =>
    rw [h1] at h
    have hl1 : r1.length + phrase.length = (cs.dropWhile pyWs).length := dropPrefixQ_length h1
    have hl0 : (cs.dropWhile pyWs).length ≤ cs.length := length_dropWhile_le' pyWs cs
    have hpl : 1 ≤ phrase.length := by
      cases phrase
      · exact absurd rfl hp
      · simp
    cases r1 with
    | nil => simp at h
    | cons c t =>
      simp only at h
      split at h
      · simp only [Option.some.injEq] at h
        subst h
        have ht : (t.dropWhile pyWs).length ≤ t.length := length_dropWhile_le' pyWs t
        simp only [List.length_cons] at hl1
        omega
      · exact absurd h (by simp)

theorem matchSuffixAt_length (suf : List Char) :
    ∀ cs r, matchSuffixAt suf cs = some r → r.length < cs.length := by
  intro cs r h
  unfold matchSuffixAt at h
  cases cs with
  | nil => exact absurd h (by simp)
  | cons c cs' =>
    simp only at h
    split at h
    · rename_i hws
      split at h
      case h_2 => exact absurd h (by simp)
      case h_1 r1 h1 =>
        have hl1 : r1.length + suf.length = ((c :: cs').dropWhile pyWs).length :=
          dropPrefixQ_length h1
        have hdw : ((c :: cs').dropWhile pyWs).length ≤ cs'.length := by
          have heq : (c :: cs').dropWhile pyWs = cs'.dropWhile pyWs := by
            simp [List.dropWhile, hws]
          rw [heq]
          exact length_dropWhile_le' pyWs cs'
        split at h
        · have h2 : ([] : List Char) = r := by simpa using h
          subst h2
          simp only [List.length_nil, List.length_cons]
          omega
        · rename_i d t
          split at h
          · have h2 : t.dropWhile pyWs = r := by simpa using h
            have ht : (t.dropWhile pyWs).length ≤ t.length := length_dropWhile_le' pyWs t
            subst h2
            simp only [List.length_cons] at hl1 ⊢
            omega
          · exact absurd h (by simp)
    · exact absurd h (by simp)

theorem matchWsRun_length : ∀ cs r, matchWsRun cs = some r → r.length < cs.length := by
  intro cs r h
  unfold matchWsRun at h
  cases cs with
  | nil => exact absurd h (by simp)
  | cons c rest =>
    simp only at h
    split at h
    · simp only [Option.some.injEq] at h
      have := length_dropWhile_le' pyWs rest
      subst h; simp; omega
    · exact absurd h (by simp)

theorem matchDotRun_length : ∀ cs r, matchDotRun cs = some r → r.length < cs.length := by
  intro cs r h
  unfold matchDotRun at h
  split at h
  · rename_i rest
    simp only [Option.some.injEq] at h
    have := length_dropWhile_le' (· = '.') rest
    subst h; simp; omega
  · exact absurd h (by simp)

theorem matchWordAt_length (w : List Char) (prev : Option Char) :
    ∀ cs r, matchWordAt w prev cs = some r → r.length < cs.length := by
  intro cs r h
  unfold matchWordAt at h
  cases w with
  | nil => exact absurd h (by simp)
  | cons a w' =>
    simp only at h
    split at h
    · split at h
      case h_2 => exact absurd h (by simp)
      case h_1 rest h1 =>
        have := dropPrefixQ_length h1
        split at h
        · simp only [Option.some.injEq] at h
          subst h
          simp only [List.length_cons] at this
          omega
        · exact absurd h (by simp)
    · exact absurd h (by simp)

/-! ## Claim theorems -/

set_option maxRecDepth 8000

/-- C1: the special case maps "QCR Holdings Inc" and "QCR Holdings" to
"qcr holdings", but "QCR Holdings Incorporated" comes out as
"qcr holdingsorporated": the alternation `(?:inc|incorporated)?` commits to
"inc" inside "incorporated", so the tail "orporated" survives the rewrite.
The code contradicts the documented intent of its own special case ("Special
handling for QCR Holdings variations"), whose "incorporated" alternative is
unreachable. -/
theorem c1_qcr_special_case :
    normalize_company_name "QCR Holdings Inc" = "qcr holdings" ∧
    normalize_company_name "QCR Holdings" = "qcr holdings" ∧
    normalize_company_name "QCR Holdings Incorporated" = "qcr holdingsorporated" ∧
    normalize_company_name "QCR Holdings Incorporated" ≠ "qcr holdings" :=
  ⟨by rfl, by rfl, by rfl, by decide⟩

/-- C4 (counterexample): `normalize_company_name` is not idempotent — on
"a co co" one application yields "a co" (the `re.sub` for the suffix "co"
consumes the separating whitespace, so the second "co" is not matched), and a
second application strips further. -/
theorem c4_counterexample :
    normalize_company_name (normalize_company_name "a co co") ≠
      normalize_company_name "a co co" := by decide

/-- C4 (amended): one application of `normalize_company_name` need not reach a
fixed point when a corporate-suffix word occurs twice in a row: "a co co"
normalizes to "a co", which a second application takes to the fixed point "a".
The same phenomenon affects `app.py`'s `normalize_company_name`
("x ltd ltd" → "x ltd" → "x"). -/
theorem c4_amended_second_application :
    normalize_company_name "a co co" = "a co" ∧
    normalize_company_name "a co" = "a" ∧
    normalize_company_name "a" = "a" ∧
    App.normalize_company_name "x ltd ltd" = "x ltd" ∧
    App.normalize_company_name "x ltd" = "x" ∧
    App.normalize_company_name "x" = "x" :=
  ⟨by rfl, by rfl, by rfl, by rfl, by rfl, by rfl⟩

/-- C2 (counterexample): for a source first name "Bill" and target first name
"William" the nickname loop considers exactly one alias pair — the original
names themselves — because the alias table is equality-gated ("william" on
the source side, "robert" on the target side) with no reverse lookup; the
only rescore the loop can perform is of the plain "bill smith" /
"william smith" keys, which reaches 78 — below the default person threshold
of 85 — so nickname expansion cannot rescue a pair whose direct score is
below the threshold, contrary to the claim. -/
theorem c2_counterexample :
    nickname_pairs "bill" "william" = [("bill", "william")] ∧
    fuzzMax3 "bill smith".data "william smith".data = 78 ∧
    78 < default_thresholds.person_name :=
  ⟨by decide, by rfl, by decide⟩

/-- C2 (amended): nickname expansion is one-directional and equality-gated:
the source side expands only the exact first name "william" (to will, bill,
billy), the target side only "robert" (to rob, bob, bobby); every other first
name — "Bill" included — keeps only itself, so for source "Bill" / target
"William" the rescoring loop re-scores just the original
"first-name last-name" pair. -/
theorem c2_amended_nickname_gating (fi ft : String) :
    (fi ≠ "william" → input_nicknames fi = [fi]) ∧
    (ft ≠ "robert" → target_nicknames ft = [ft]) ∧
    input_nicknames "william" = ["will", "bill", "billy"] ∧
    target_nicknames "robert" = ["rob", "bob", "bobby"] ∧
    (fi ≠ "william" → ft ≠ "robert" → nickname_pairs fi ft = [(fi, ft)]) := by
  refine ⟨?_, ?_, by decide, by decide, ?_⟩
  · intro h; simp [input_nicknames, h]
  · intro h; simp [target_nicknames, h]
  · intro h1 h2
    simp [nickname_pairs, input_nicknames, target_nicknames, h1, h2]

/-- C2 (witness for the amended claim, instantiated at the Bill/William
pair). -/
theorem c2_amended_witness :
    input_nicknames "bill" = ["bill"] ∧ target_nicknames "william" = ["william"] ∧
    nickname_pairs "bill" "william" = [("bill", "william")] :=
  ⟨(c2_amended_nickname_gating "bill" "william").1 (by decide),
   (c2_amended_nickname_gating "bill" "william").2.1 (by decide),
   (c2_amended_nickname_gating "bill" "william").2.2.2.2 (by decide) (by decide)⟩

/-- C3 (counterexample): `match_companies` emits one match per source row, so
two source rows carrying the same company string "Acme" yield two recorded
matches for the same normalized source key "acme" — the output does contain
duplicate matches for one normalized source-company string. -/
theorem c3_counterexample :
    (App.match_companies c3_ideal c3_source 85).map (fun ms =>
      (ms.map (fun (m : App.CompanyMatch) => App.normOpt m.source_company)).count "acme") =
      some 2 := by rfl

/-- C8 (counterexample): it is not the case that every one of the five
thresholds gates the engine's output — the `email` threshold is never read
(the exact-email test compares against the literal 100), so no two threshold
sets differing only in the email value can produce different outputs.  (The
`department` threshold is likewise never read.) -/
theorem c8_counterexample : ¬ claimC8 := by
  intro h
  unfold claimC8 fieldGates at h
  obtain ⟨-, -, ⟨pmi, pmt, tgt, src, th, v, hne⟩, -, -⟩ := h
  exact hne (by cases th; rfl)

/-- C8 (amended): the `company_name`, `person_name` and `title` thresholds
each gate the engine's output, while the `email` and `department` thresholds
are ignored: changing either never changes any output. -/
theorem c8_amended_three_gates :
    fieldGates setCompany ∧ fieldGates setPerson ∧ fieldGates setTitle ∧
    (∀ pmi pmt tgt src th v,
      engineOutput pmi pmt tgt src (setEmail th v) = engineOutput pmi pmt tgt src th) ∧
    (∀ pmi pmt tgt src th v,
      engineOutput pmi pmt tgt src (setDepartment th v) =
        engineOutput pmi pmt tgt src th) := by
  refine ⟨⟨[], [], c8_company_target, c8_company_source, ⟨80, 85, 100, 70, 70⟩, 85, ?_⟩,
    ⟨[], [], c8_person_target, c8_person_source, ⟨85, 85, 100, 70, 70⟩, 90, ?_⟩,
    ⟨[], [], c8_title_target, c8_title_source, ⟨85, 85, 100, 70, 70⟩, 80, ?_⟩,
    fun pmi pmt tgt src th v => by cases th; rfl,
    fun pmi pmt tgt src th v => by cases th; rfl⟩
  · decide
  · decide
  · decide

/-- C6 (counterexample): the roster upsert key is built from the raw-cased
first name, last name and email, so two source rows whose identity fields
differ only in letter case produce two contacts in the roster entry — not
one deduplicated contact as the claim's lower-cased key would give. -/
theorem c6_counterexample :
    (find_matches c6_target c6_source default_thresholds).map
      (fun (e : RosterEntry) => e.2.2.map (fun c => contactKey c.fields)) =
      [["Jane-Doe-j@a.co", "JANE-DOE-J@A.CO"]] ∧
    pyLowerL "Jane-Doe-j@a.co".data = pyLowerL "JANE-DOE-J@A.CO".data ∧
    "Jane-Doe-j@a.co" ≠ "JANE-DOE-J@A.CO" :=
  ⟨by rfl, by rfl, by decide⟩


/-! ## Helper lemmas for the aggregator theorems -/

theorem fmStep_src_nil (tc tp tt : Nat) (acc : List (String × (String × List ContactPayload)))
    (r : Row) : fmStep tc tp tt [] acc r = acc := by
  unfold fmStep
  cases h : usableCompany r with
  | none => rfl
  | some c =>
    simp only
    split
    · rfl
    · simp [contactsForTarget]

theorem foldl_fmStep_src_nil (tc tp tt : Nat) :
    ∀ (tgt : List Row) (acc : List (String × (String × List ContactPayload))),
    tgt.foldl (fmStep tc tp tt []) acc = acc := by
  intro tgt
  induction tgt with
  | nil => intro acc; rfl
  | cons r tgt ih =>
    intro acc
    simp only [List.foldl_cons, fmStep_src_nil]
    exact ih acc

theorem fmStep_skip_none (tc tp tt : Nat) (src : List Row)
    (acc : List (String × (String × List ContactPayload))) (r : Row)
    (h : usableCompany r = none) : fmStep tc tp tt src acc r = acc := by
  unfold fmStep
  rw [h]

theorem fmStep_skip_empty_norm (tc tp tt : Nat) (src : List Row)
    (acc : List (String × (String × List ContactPayload))) (r : Row) (c : String)
    (h : usableCompany r = some c) (hn : normalize_company_name c = "") :
    fmStep tc tp tt src acc r = acc := by
  unfold fmStep
  rw [h]
  simp [hn]

theorem contactsForTarget_skip (tc tp tt : Nat) (trow : Row) (tn : String)
    (s : Row) (src : List Row)
    (h : usableCompany s = none ∨
      ∃ c, usableCompany s = some c ∧ normalize_company_name c = "") :
    contactsForTarget tc tp tt trow tn (s :: src) =
      contactsForTarget tc tp tt trow tn src := by
  have hstep : ∀ cd : List (String × ContactPayload),
      (match usableCompany s with
        | none => cd
        | some source_company =>
          let source_norm := normalize_company_name source_company
          if source_norm = "" then cd
          else if tc ≤ token_sort_ratio tn.data source_norm.data then
            let contact_data := buildContactData s
            let pm := personMatchFlag tp tt trow s
            dictUpsert cd (contactKey contact_data) ⟨contact_data, pm⟩
          else cd) = cd := by
    intro cd
    rcases h with h | ⟨c, hc, hn⟩
    · rw [h]
    · rw [hc]; simp [hn]
  unfold contactsForTarget
  simp only [List.foldl_cons]
  rw [hstep]

theorem fmStep_src_skip (tc tp tt : Nat) (s : Row) (src : List Row)
    (acc : List (String × (String × List ContactPayload))) (r : Row)
    (h : usableCompany s = none ∨
      ∃ c, usableCompany s = some c ∧ normalize_company_name c = "") :
    fmStep tc tp tt (s :: src) acc r = fmStep tc tp tt src acc r := by
  unfold fmStep
  cases hr : usableCompany r with
  | none => rfl
  | some c =>
    simp only
    rw [contactsForTarget_skip tc tp tt r _ s src h]

theorem find_matches_core_src_skip (tc tp tt : Nat) (s : Row) (tgt src : List Row)
    (h : usableCompany s = none ∨
      ∃ c, usableCompany s = some c ∧ normalize_company_name c = "") :
    find_matches_core tc tp tt tgt (s :: src) = find_matches_core tc tp tt tgt src := by
  unfold find_matches_core
  have hfold : ∀ (l : List Row) acc,
      l.foldl (fmStep tc tp tt (s :: src)) acc = l.foldl (fmStep tc tp tt src) acc := by
    intro l
    induction l with
    | nil => intro acc; rfl
    | cons r l ih =>
      intro acc
      simp only [List.foldl_cons, fmStep_src_skip tc tp tt s src acc r h]
      exact ih _
  rw [hfold]

theorem find_matches_core_tgt_skip (tc tp tt : Nat) (r : Row) (tgt src : List Row)
    (h : usableCompany r = none ∨
      ∃ c, usableCompany r = some c ∧ normalize_company_name c = "") :
    find_matches_core tc tp tt (r :: tgt) src = find_matches_core tc tp tt tgt src := by
  unfold find_matches_core
  simp only [List.foldl_cons]
  rcases h with h | ⟨c, hc, hn⟩
  · rw [fmStep_skip_none tc tp tt src [] r h]
  · rw [fmStep_skip_empty_norm tc tp tt src [] r c hc hn]

theorem find_matches_core_no_company_col (tc tp tt : Nat) :
    ∀ (tgt : List Row) (src : List Row), (∀ r ∈ tgt, usableCompany r = none) →
    find_matches_core tc tp tt tgt src = [] := by
  intro tgt
  induction tgt with
  | nil => intro src _; rfl
  | cons r tgt ih =>
    intro src h
    rw [find_matches_core_tgt_skip tc tp tt r tgt src (Or.inl (h r (by simp)))]
    exact ih src (fun q hq => h q (by simp [hq]))

theorem match_companies_no_source_col (ideal source : App.DF) (t : Nat)
    (h : App.colDetect source.cols = none) :
    App.match_companies ideal source t = some [] := by
  unfold App.match_companies
  rw [h]

theorem match_companies_no_ideal_col (ideal source : App.DF) (t : Nat)
    (h : App.colDetect ideal.cols = none) :
    App.match_companies ideal source t = some [] := by
  unfold App.match_companies
  cases hs : App.colDetect source.cols with
  | none => rfl
  | some c => rw [h]

theorem match_companies_empty_source (ideal : App.DF) (scols : List String) (t : Nat) :
    App.match_companies ideal ⟨scols, []⟩ t = some [] := by
  unfold App.match_companies
  cases hs : App.colDetect scols with
  | none => rfl
  | some c =>
    cases hi : App.colDetect ideal.cols with
    | none => rfl
    | some d => rfl


/-- C9: data-quality problems degrade to empty or reduced results, never to an
error: an empty source dataset yields an empty roster; an empty target
likewise; a target or source row without a usable company value, or whose
company normalizes to the empty string, is skipped without affecting the rest;
a target dataset with no recognizable company column yields an empty roster;
and `match_companies` returns an empty match list (never its error value
`none`) when either dataframe lacks a company column or the source has no
rows. -/
theorem c9_data_quality_degrades_to_empty :
    (∀ tc tp tt tgt, find_matches_core tc tp tt tgt [] = []) ∧
    (∀ tc tp tt src, find_matches_core tc tp tt [] src = []) ∧
    (∀ tc tp tt r tgt src,
      (usableCompany r = none ∨
        ∃ c, usableCompany r = some c ∧ normalize_company_name c = "") →
      find_matches_core tc tp tt (r :: tgt) src = find_matches_core tc tp tt tgt src) ∧
    (∀ tc tp tt s tgt src,
      (usableCompany s = none ∨
        ∃ c, usableCompany s = some c ∧ normalize_company_name c = "") →
      find_matches_core tc tp tt tgt (s :: src) = find_matches_core tc tp tt tgt src) ∧
    (∀ tc tp tt tgt src, (∀ r ∈ tgt, usableCompany r = none) →
      find_matches_core tc tp tt tgt src = []) ∧
    (∀ ideal source t, App.colDetect source.cols = none →
      App.match_companies ideal source t = some []) ∧
    (∀ ideal source t, App.colDetect ideal.cols = none →
      App.match_companies ideal source t = some []) ∧
    (∀ ideal scols t, App.match_companies ideal ⟨scols, []⟩ t = some []) := by
  refine ⟨?_, ?_, ?_, ?_, ?_, ?_, ?_, ?_⟩
  · intro tc tp tt tgt
    unfold find_matches_core
    rw [foldl_fmStep_src_nil]
    rfl
  · intro tc tp tt src
    rfl
  · intro tc tp tt r tgt src h
    exact find_matches_core_tgt_skip tc tp tt r tgt src h
  · intro tc tp tt s tgt src h
    exact find_matches_core_src_skip tc tp tt s tgt src h
  · intro tc tp tt tgt src h
    exact find_matches_core_no_company_col tc tp tt tgt src h
  · intro ideal source t h
    exact match_companies_no_source_col ideal source t h
  · intro ideal source t h
    exact match_companies_no_ideal_col ideal source t h
  · intro ideal scols t
    exact match_companies_empty_source ideal scols t

/-- C9 (witness): the skip and empty-result behaviors at concrete inputs — a
source row with no company column is skipped, a NaN company row is skipped, a
row whose company normalizes to the empty string (".") is skipped, and the
dataset-level cases give empty results. -/
theorem c9_witness :
    find_matches_core 85 85 70 c6_target [] = [] ∧
    find_matches_core 85 85 70 [] c6_source = [] ∧
    find_matches_core 85 85 70 ([("First Name", some "Jo")] :: c6_target) c6_source =
      find_matches_core 85 85 70 c6_target c6_source ∧
    find_matches_core 85 85 70 c6_target ([("Company", none)] :: c6_source) =
      find_matches_core 85 85 70 c6_target c6_source ∧
    find_matches_core 85 85 70 c6_target ([("Company", some ".")] :: c6_source) =
      find_matches_core 85 85 70 c6_target c6_source ∧
    find_matches_core 85 85 70 [[("First Name", some "Jo")]] c6_source = [] ∧
    App.match_companies c3_ideal ⟨["Name"], c3_source.rows⟩ 85 = some [] ∧
    App.match_companies ⟨["Name"], c3_ideal.rows⟩ c3_source 85 = some [] ∧
    App.match_companies c3_ideal ⟨["Company"], []⟩ 85 = some [] := by
  refine ⟨(c9_data_quality_degrades_to_empty).1 85 85 70 c6_target,
    (c9_data_quality_degrades_to_empty).2.1 85 85 70 c6_source,
    (c9_data_quality_degrades_to_empty).2.2.1 85 85 70 _ c6_target c6_source
      (Or.inl (by decide)),
    (c9_data_quality_degrades_to_empty).2.2.2.1 85 85 70 _ c6_target c6_source
      (Or.inl (by decide)),
    (c9_data_quality_degrades_to_empty).2.2.2.1 85 85 70 _ c6_target c6_source
      (Or.inr ⟨".", by decide, by rfl⟩),
    (c9_data_quality_degrades_to_empty).2.2.2.2.1 85 85 70 _ c6_source
      (by decide),
    (c9_data_quality_degrades_to_empty).2.2.2.2.2.1 c3_ideal _ 85 (by decide),
    (c9_data_quality_degrades_to_empty).2.2.2.2.2.2.1 _ c3_source 85 (by decide),
    (c9_data_quality_degrades_to_empty).2.2.2.2.2.2.2 c3_ideal ["Company"] 85⟩


theorem mem_insByDisplay {e x : RosterEntry} :
    ∀ {l : List RosterEntry}, e ∈ insByDisplay x l → e = x ∨ e ∈ l := by
  intro l
  induction l with
  | nil => intro h; simp [insByDisplay] at h; exact Or.inl h
  | cons y ys ih =>
    intro h
    unfold insByDisplay at h
    split at h
    · rcases List.mem_cons.mp h with h | h
      · exact Or.inr (h ▸ List.mem_cons_self y ys)
      · rcases ih h with h2 | h2
        · exact Or.inl h2
        · exact Or.inr (List.mem_cons_of_mem y h2)
    · rcases List.mem_cons.mp h with h | h
      · exact Or.inl h
      · exact Or.inr h

theorem mem_sortByDisplay {e : RosterEntry} :
    ∀ {l : List RosterEntry}, e ∈ sortByDisplay l → e ∈ l := by
  intro l
  induction l with
  | nil => intro h; simp [sortByDisplay] at h
  | cons x xs ih =>
    intro h
    rcases mem_insByDisplay h with h | h
    · simp [h]
    · exact List.mem_cons_of_mem x (ih h)

theorem dictUpsert_ne_nil {α : Type} (m : List (String × α)) (k : String) (v : α) :
    dictUpsert m k v ≠ [] := by
  unfold dictUpsert
  split
  · intro h
    rcases m with _ | ⟨p, m⟩
    · simp at *
    · simp at h
  · simp

theorem mem_dictUpsert {α : Type} {q : String × α} {m : List (String × α)}
    {k : String} {v : α} (h : q ∈ dictUpsert m k v) : q = (k, v) ∨ q ∈ m := by
  unfold dictUpsert at h
  split at h
  · rcases List.mem_map.mp h with ⟨p, hp, hq⟩
    by_cases hk : p.1 == k
    · rw [if_pos hk] at hq; exact Or.inl hq.symm
    · rw [if_neg hk] at hq; exact Or.inr (hq ▸ hp)
  · rcases List.mem_append.mp h with h | h
    · exact Or.inr h
    · exact Or.inl (by simpa using h)

theorem foldl_dictUpsert_ne_nil :
    ∀ (l : List (String × ContactPayload)) (d : List (String × ContactPayload)),
    l ≠ [] ∨ d ≠ [] →
    l.foldl (fun d kc => dictUpsert d kc.1 kc.2) d ≠ [] := by
  intro l
  induction l with
  | nil =>
    intro d h
    rcases h with h | h
    · exact absurd rfl h
    · exact h
  | cons x xs ih =>
    intro d _
    simp only [List.foldl_cons]
    exact ih _ (Or.inr (dictUpsert_ne_nil _ _ _))

theorem fmStep_contacts_ne_nil (tc tp tt : Nat) (src : List Row)
    (acc : List (String × (String × List ContactPayload))) (r : Row)
    (hacc : ∀ p ∈ acc, (p : String × (String × List ContactPayload)).2.2 ≠ []) :
    ∀ p ∈ fmStep tc tp tt src acc r,
      (p : String × (String × List ContactPayload)).2.2 ≠ [] := by
  unfold fmStep
  cases h : usableCompany r with
  | none => exact hacc
  | some c =>
    simp only
    by_cases hn : normalize_company_name c = ""
    · rw [if_pos hn]; exact hacc
    · rw [if_neg hn]
      by_cases hcd : (contactsForTarget tc tp tt r (normalize_company_name c) src).isEmpty
      · rw [if_pos hcd]; exact hacc
      · rw [if_neg hcd]
        have hcdne : contactsForTarget tc tp tt r (normalize_company_name c) src ≠ [] := by
          intro hx
          rw [hx] at hcd
          exact hcd rfl
        cases hf : acc.find? (fun p => p.1 == normalize_company_name c) with
        | some p =>
          intro q hq
          rcases mem_dictUpsert hq with hq | hq
          · subst hq
            simp only
            intro hcon
            exact foldl_dictUpsert_ne_nil _ _ (Or.inl hcdne) (List.map_eq_nil_iff.mp hcon)
          · exact hacc q hq
        | none =>
          intro q hq
          rcases List.mem_append.mp hq with hq | hq
          · exact hacc q hq
          · have hq2 := List.mem_singleton.mp hq
            subst hq2
            simp only
            intro hcon
            exact hcdne (List.map_eq_nil_iff.mp hcon)

/-- C10: every roster entry emitted by `find_matches` contains at least one
contact; moreover, a target row for which the source scan produces no contact
(for instance because no source row reaches the company threshold) creates no
roster entry at all rather than an entry with an empty contact list. -/
theorem c10_roster_entries_nonempty :
    (∀ tc tp tt tgt src (e : RosterEntry),
      e ∈ find_matches_core tc tp tt tgt src → e.2.2 ≠ []) ∧
    (∀ tc tp tt (r : Row) (src : List Row),
      (∀ c, usableCompany r = some c →
        contactsForTarget tc tp tt r (normalize_company_name c) src = []) →
      find_matches_core tc tp tt [r] src = []) := by
  constructor
  · intro tc tp tt tgt src e he
    have hfold : ∀ p ∈ tgt.foldl (fmStep tc tp tt src) [],
        (p : String × (String × List ContactPayload)).2.2 ≠ [] := by
      have hgen : ∀ (l : List Row) acc,
          (∀ p ∈ acc, (p : String × (String × List ContactPayload)).2.2 ≠ []) →
          ∀ p ∈ l.foldl (fmStep tc tp tt src) acc,
            (p : String × (String × List ContactPayload)).2.2 ≠ [] := by
        intro l
        induction l with
        | nil => intro acc h; exact h
        | cons r l ih =>
          intro acc h
          exact ih _ (fmStep_contacts_ne_nil tc tp tt src acc r h)
      exact hgen tgt [] (by simp)
    unfold find_matches_core at he
    have he2 := mem_sortByDisplay he
    rcases List.mem_map.mp he2 with ⟨p, hp, hpe⟩
    have := hfold p hp
    rw [← hpe]
    exact this
  · intro tc tp tt r src h
    unfold find_matches_core
    simp only [List.foldl_cons, List.foldl_nil]
    cases hr : usableCompany r with
    | none => rw [fmStep_skip_none tc tp tt src [] r hr]; rfl
    | some c =>
      unfold fmStep
      rw [hr]
      simp only
      split
      · rfl
      · rw [h c hr]
        rfl

/-- C10 (witness): the concrete Ann Box / Ann Cox run produces exactly one
roster entry, whose contact list is nonempty; and the same target matched
against the non-matching "Zeta" source produces no entry at all. -/
theorem c10_witness :
    (("acme", "Acme",
        [⟨[("First Name", "Ann"), ("Last Name", "Cox"), ("Company", "Acme")], true⟩]) :
        RosterEntry).2.2 ≠ [] ∧
    find_matches_core 85 85 70 c8_person_target zeta_source = [] := by
  constructor
  · have hrun : find_matches_core 85 85 70 c8_person_target c8_person_source =
        [("acme", "Acme",
          [⟨[("First Name", "Ann"), ("Last Name", "Cox"), ("Company", "Acme")], true⟩])] := by
      rfl
    refine (c10_roster_entries_nonempty).1 85 85 70 c8_person_target c8_person_source _ ?_
    rw [hrun]
    exact List.mem_singleton_self _
  · have h : ∀ c, usableCompany
        [("Company", some "Acme"), ("First Name", some "Ann"), ("Last Name", some "Box")] = some c →
        contactsForTarget 85 85 70
          [("Company", some "Acme"), ("First Name", some "Ann"), ("Last Name", some "Box")]
          (normalize_company_name c) zeta_source = [] := by
      intro c hc
      have hu : usableCompany
          [("Company", some "Acme"), ("First Name", some "Ann"), ("Last Name", some "Box")] =
            some "Acme" := by rfl
      rw [hu] at hc
      have h2 : "Acme" = c := Option.some.inj hc
      subst h2
      rfl
    show find_matches_core 85 85 70
        [[("Company", some "Acme"), ("First Name", some "Ann"), ("Last Name", some "Box")]]
        zeta_source = []
    exact (c10_roster_entries_nonempty).2 85 85 70
      [("Company", some "Acme"), ("First Name", some "Ann"), ("Last Name", some "Box")]
      zeta_source h


/-! ## Helper lemmas for the company-matcher fold -/

theorem foldl_none_of_none {M R : Type} (f : Option M → R → Option M)
    (hnone : ∀ b, f none b = none) :
    ∀ (ps : List R), ps.foldl f none = none := by
  intro ps
  induction ps with
  | nil => rfl
  | cons b ps ih => rw [List.foldl_cons, hnone b, ih]

theorem foldl_upsert_pairwise {M R : Type} (key : M → Nat)
    (f : Option (List M) → (Nat × R) → Option (List M))
    (hnone : ∀ b, f none b = none)
    (hstep : ∀ ms b, f (some ms) b = none ∨ f (some ms) b = some ms ∨
      ∃ m, key m = b.1 ∧ f (some ms) b = some (ms ++ [m])) :
    ∀ (ps : List (Nat × R)) (ms ms2 : List M),
      (ms.map key ++ ps.map (fun q => q.1)).Pairwise (· < ·) →
      ps.foldl f (some ms) = some ms2 →
      (ms2.map key).Pairwise (· < ·) := by
  intro ps
  induction ps with
  | nil =>
    intro ms ms2 hpw h
    simp only [List.foldl_nil, Option.some.injEq] at h
    subst h
    simpa using hpw
  | cons b ps ih =>
    intro ms ms2 hpw h
    rw [List.foldl_cons] at h
    rcases hstep ms b with h1 | h1 | ⟨m, hm, h1⟩
    · rw [h1, foldl_none_of_none f hnone ps] at h
      exact absurd h (by simp)
    · rw [h1] at h
      refine ih ms ms2 (hpw.sublist ?_) h
      exact List.Sublist.append_left (List.sublist_cons_self _ _) _
    · rw [h1] at h
      refine ih (ms ++ [m]) ms2 ?_ h
      have heq : (ms ++ [m]).map key ++ ps.map (fun q => q.1) =
          ms.map key ++ (b.1 :: ps.map (fun q => q.1)) := by
        simp [hm]
      rw [heq]
      exact hpw

/-- C3 (amended): `match_companies` records at most one company match per
source ROW: whenever it succeeds, the `source_idx` values of the returned
matches are pairwise distinct.  (It does not deduplicate by normalized
source-company string, as `c3_counterexample` shows.) -/
theorem c3_amended_one_match_per_row (ideal source : App.DF) (th : Nat)
    (ms : List App.CompanyMatch)
    (h : App.match_companies ideal source th = some ms) :
    (ms.map (fun m => m.source_idx)).Pairwise (fun a b => a ≠ b) := by
  unfold App.match_companies at h
  cases hsc : App.colDetect source.cols with
  | none =>
    rw [hsc] at h
    simp only [Option.some.injEq] at h
    subst h
    exact List.Pairwise.nil
  | some source_col =>
    rw [hsc] at h
    cases hic : App.colDetect ideal.cols with
    | none =>
      rw [hic] at h
      simp only [Option.some.injEq] at h
      subst h
      exact List.Pairwise.nil
    | some ideal_col =>
      rw [hic] at h
      refine List.Pairwise.imp (fun hab => Nat.ne_of_lt hab) ?_
      refine foldl_upsert_pairwise (fun m => m.source_idx) _ (fun b => rfl) ?_
        source.rows.enum [] ms ?_ h
      · intro ms0 b
        dsimp only
        split
        · exact Or.inr (Or.inl rfl)
        · split
          · exact Or.inl rfl
          · split
            · split
              · exact Or.inr (Or.inr ⟨_, rfl, rfl⟩)
              · exact Or.inl rfl
            · exact Or.inr (Or.inl rfl)
      · simp only [List.map_nil, List.nil_append]
        have heq : source.rows.enum.map (fun q => (q : Nat × Row).1) =
            List.range source.rows.length := by
          simp [List.enum_map_fst]
        rw [heq]
        exact List.pairwise_lt_range _

/-- C3 (amended, witness): the duplicate-"Acme" run returns two matches with
distinct source row indexes 0 and 1. -/
theorem c3_amended_witness :
    (([(⟨0, 0, some "Acme", some "Acme", 100⟩ : App.CompanyMatch),
       ⟨0, 1, some "Acme", some "Acme", 100⟩].map
        (fun m => m.source_idx)).Pairwise (fun a b => a ≠ b)) :=
  c3_amended_one_match_per_row c3_ideal c3_source 85
    [⟨0, 0, some "Acme", some "Acme", 100⟩, ⟨0, 1, some "Acme", some "Acme", 100⟩]
    (by rfl)


/-! ## Helper lemmas for the roster dictionary keys -/

theorem keys_dictUpsert {α : Type} (d : List (String × α)) (k : String) (v : α) :
    (dictUpsert d k v).map (fun p => p.1) =
      if d.any (fun p => p.1 == k) then d.map (fun p => p.1)
      else d.map (fun p => p.1) ++ [k] := by
  unfold dictUpsert
  by_cases h : d.any (fun p => p.1 == k) = true
  · rw [if_pos h, if_pos h, List.map_map]
    refine List.map_congr_left ?_
    intro p hp
    by_cases hk : p.1 = k
    · simp [hk]
    · simp [hk]
  · rw [if_neg h, if_neg h]
    simp

theorem find_map_replace {α : Type} (k : String) (v : α) :
    ∀ (m : List (String × α)), m.any (fun p => p.1 == k) = true →
    (m.map (fun p => if p.1 == k then (k, v) else p)).find? (fun p => p.1 == k) =
      some (k, v) := by
  intro m
  induction m with
  | nil => intro h; simp at h
  | cons p m ih =>
    intro h
    by_cases hk : p.1 = k
    · simp [hk]
    · have h2 : m.any (fun q => q.1 == k) = true := by
        simp only [List.any_cons, Bool.or_eq_true] at h
        rcases h with h | h
        · exact absurd (by simpa using h) hk
        · exact h
      simp only [List.map_cons]
      rw [if_neg (by simpa using hk)]
      rw [List.find?_cons_of_neg _ (by simpa using hk)]
      exact ih h2

theorem find_dictUpsert {α : Type} (m : List (String × α)) (k : String) (v : α) :
    (dictUpsert m k v).find? (fun p => p.1 == k) = some (k, v) := by
  unfold dictUpsert
  by_cases h : m.any (fun p => p.1 == k) = true
  · rw [if_pos h]
    exact find_map_replace k v m h
  · rw [if_neg h]
    have hnone : m.find? (fun p => p.1 == k) = none := by
      rw [List.find?_eq_none]
      intro x hx hxk
      exact h (List.any_eq_true.mpr ⟨x, hx, hxk⟩)
    rw [List.find?_append, hnone]
    simp

theorem dictUpsert_overwrite {α : Type} (m : List (String × α)) (k : String) (v w : α) :
    dictUpsert (dictUpsert m k v) k w = dictUpsert m k w := by
  by_cases h : m.any (fun p => p.1 == k) = true
  · have hv : dictUpsert m k v = m.map (fun p => if p.1 == k then (k, v) else p) := by
      unfold dictUpsert; rw [if_pos h]
    have hw : dictUpsert m k w = m.map (fun p => if p.1 == k then (k, w) else p) := by
      unfold dictUpsert; rw [if_pos h]
    rcases List.any_eq_true.mp h with ⟨p, hp, hpk⟩
    have hany2 : (m.map (fun p => if p.1 == k then (k, v) else p)).any
        (fun p => p.1 == k) = true := by
      refine List.any_eq_true.mpr ⟨(k, v), List.mem_map.mpr ⟨p, hp, by rw [if_pos hpk]⟩, ?_⟩
      exact beq_self_eq_true k
    rw [hv, hw]
    unfold dictUpsert
    rw [if_pos hany2, List.map_map]
    refine List.map_congr_left ?_
    intro q hq
    by_cases hqk : q.1 = k
    · simp [hqk]
    · simp [hqk]
  · have hall : ∀ p ∈ m, ¬ ((fun p => p.1 == k) p = true) :=
      List.any_eq_false.mp (Bool.eq_false_iff.mpr h)
    have hv : dictUpsert m k v = m ++ [(k, v)] := by
      unfold dictUpsert; rw [if_neg h]
    have hany2 : (m ++ [(k, v)]).any (fun p => p.1 == k) = true := by
      refine List.any_eq_true.mpr ⟨(k, v), List.mem_append_right m (List.mem_singleton_self _), ?_⟩
      exact beq_self_eq_true k
    rw [hv]
    unfold dictUpsert
    rw [if_pos hany2, if_neg h, List.map_append]
    have hm : m.map (fun p => if p.1 == k then (k, w) else p) = m := by
      have : m.map (fun p => if p.1 == k then (k, w) else p) = m.map id := by
        refine List.map_congr_left ?_
        intro q hq
        rw [if_neg (by simpa using hall q hq)]
        rfl
      rw [this, List.map_id]
    rw [hm]
    have hone : [((k : String), v)].map (fun p => if p.1 == k then (k, w) else p) =
        [(k, w)] := by
      simp
    rw [hone]

theorem dictUpsert_keyed (d : List (String × ContactPayload)) (k : String) (v : ContactPayload)
    (h1 : ∀ q ∈ d, (q : String × ContactPayload).1 = contactKey q.2.fields)
    (hk : k = contactKey v.fields) :
    ∀ q ∈ dictUpsert d k v, (q : String × ContactPayload).1 = contactKey q.2.fields := by
  intro q hq
  rcases mem_dictUpsert hq with hq | hq
  · subst hq; exact hk
  · exact h1 q hq

theorem dictUpsert_nodup_keys {α : Type} (d : List (String × α)) (k : String) (v : α)
    (hnd : (d.map (fun p => p.1)).Nodup) :
    ((dictUpsert d k v).map (fun p => p.1)).Nodup := by
  rw [keys_dictUpsert]
  by_cases h : d.any (fun p => p.1 == k) = true
  · rw [if_pos h]; exact hnd
  · rw [if_neg h]
    refine List.Nodup.append hnd (List.nodup_singleton k) ?_
    intro a ha hb
    rcases List.mem_map.mp ha with ⟨p, hp, hpa⟩
    refine h (List.any_eq_true.mpr ⟨p, hp, ?_⟩)
    rw [show p.1 = k from hpa.trans (List.mem_singleton.mp hb)]
    exact beq_self_eq_true k

theorem foldl_step_wf {β : Type}
    (step : List (String × ContactPayload) → β → List (String × ContactPayload)) :
    ∀ (l : List β) (d : List (String × ContactPayload)),
      (∀ d2 b, b ∈ l → step d2 b = d2 ∨
        ∃ c : ContactPayload, step d2 b = dictUpsert d2 (contactKey c.fields) c) →
      (∀ q ∈ d, (q : String × ContactPayload).1 = contactKey q.2.fields) →
      (d.map (fun p => p.1)).Nodup →
      (∀ q ∈ l.foldl step d, (q : String × ContactPayload).1 = contactKey q.2.fields) ∧
      ((l.foldl step d).map (fun p => p.1)).Nodup := by
  intro l
  induction l with
  | nil => intro d _ h1 h2; exact ⟨h1, h2⟩
  | cons b l ih =>
    intro d hstep h1 h2
    rw [List.foldl_cons]
    rcases hstep d b (List.mem_cons_self b l) with h | ⟨c, h⟩
    · rw [h]
      exact ih d (fun d2 x hx => hstep d2 x (List.mem_cons_of_mem b hx)) h1 h2
    · rw [h]
      exact ih _ (fun d2 x hx => hstep d2 x (List.mem_cons_of_mem b hx))
        (dictUpsert_keyed d _ c h1 rfl) (dictUpsert_nodup_keys d _ c h2)

theorem contactsForTarget_wf (tc tp tt : Nat) (r : Row) (tn : String) (src : List Row) :
    (∀ q ∈ contactsForTarget tc tp tt r tn src,
      (q : String × ContactPayload).1 = contactKey q.2.fields) ∧
    ((contactsForTarget tc tp tt r tn src).map (fun p => p.1)).Nodup := by
  unfold contactsForTarget
  refine foldl_step_wf _ src [] ?_ (by simp) (by simp)
  intro d2 b hb
  dsimp only
  cases hb2 : usableCompany b with
  | none => exact Or.inl rfl
  | some sc =>
    by_cases h1 : normalize_company_name sc = ""
    · exact Or.inl (if_pos h1)
    · by_cases h2 : tc ≤ token_sort_ratio tn.data (normalize_company_name sc).data
      · exact Or.inr ⟨⟨buildContactData b, personMatchFlag tp tt r b⟩,
          (if_neg h1).trans (if_pos h2)⟩
      · exact Or.inl ((if_neg h1).trans (if_neg h2))

theorem contacts_map_key_nodup {merged : List (String × ContactPayload)}
    (h1 : ∀ q ∈ merged, (q : String × ContactPayload).1 = contactKey q.2.fields)
    (h2 : (merged.map (fun p => p.1)).Nodup) :
    ((merged.map (fun p => p.2)).map (fun c => contactKey c.fields)).Nodup := by
  rw [List.map_map]
  have heq : merged.map ((fun c => contactKey c.fields) ∘ (fun p => p.2)) =
      merged.map (fun p => p.1) := by
    refine List.map_congr_left ?_
    intro q hq
    exact (h1 q hq).symm
  rw [heq]
  exact h2

theorem fmStep_contacts_nodup (tc tp tt : Nat) (src : List Row)
    (acc : List (String × (String × List ContactPayload))) (r : Row)
    (hacc : ∀ p ∈ acc,
      ((p : String × (String × List ContactPayload)).2.2.map
        (fun c => contactKey c.fields)).Nodup) :
    ∀ p ∈ fmStep tc tp tt src acc r,
      ((p : String × (String × List ContactPayload)).2.2.map
        (fun c => contactKey c.fields)).Nodup := by
  unfold fmStep
  cases h : usableCompany r with
  | none => exact hacc
  | some c =>
    simp only
    by_cases hn : normalize_company_name c = ""
    · rw [if_pos hn]; exact hacc
    · rw [if_neg hn]
      by_cases hcd : (contactsForTarget tc tp tt r (normalize_company_name c) src).isEmpty
      · rw [if_pos hcd]; exact hacc
      · rw [if_neg hcd]
        have hwf := contactsForTarget_wf tc tp tt r (normalize_company_name c) src
        cases hf : acc.find? (fun p => p.1 == normalize_company_name c) with
        | some p =>
          intro q hq
          rcases mem_dictUpsert hq with hq | hq
          · subst hq
            simp only
            have hex := foldl_step_wf
              (fun d (cp : ContactPayload) => dictUpsert d (contactKey cp.fields) cp)
              p.2.2 [] (fun d2 x hx => Or.inr ⟨x, rfl⟩) (by simp) (by simp)
            have hmg := foldl_step_wf
              (fun d (kc : String × ContactPayload) => dictUpsert d kc.1 kc.2)
              (contactsForTarget tc tp tt r (normalize_company_name c) src) _
              (fun d2 kc hkc => Or.inr ⟨kc.2,
                congrArg (fun k2 => dictUpsert d2 k2 kc.2) (hwf.1 kc hkc)⟩)
              hex.1 hex.2
            exact contacts_map_key_nodup hmg.1 hmg.2
          · exact hacc q hq
        | none =>
          intro q hq
          rcases List.mem_append.mp hq with hq | hq
          · exact hacc q hq
          · have hq2 := List.mem_singleton.mp hq
            subst hq2
            simp only
            exact contacts_map_key_nodup hwf.1 hwf.2

/-- C6 (amended): the roster deduplication is by EXACTLY equal
`First-Last-Email` keys: within any roster entry of `find_matches_core` the
contact keys are pairwise distinct; after an upsert the key maps to the newly
written payload, and upserting the same key twice keeps only the later write
(last-write-wins).  No lower-casing is applied to the key, as
`c6_counterexample` shows. -/
theorem c6_amended_exact_key_dedup :
    (∀ tc tp tt tgt src (e : RosterEntry),
      e ∈ find_matches_core tc tp tt tgt src →
      (e.2.2.map (fun c => contactKey c.fields)).Pairwise (fun a b => a ≠ b)) ∧
    (∀ (m : List (String × ContactPayload)) (k : String) (v : ContactPayload),
      (dictUpsert m k v).find? (fun p => p.1 == k) = some (k, v)) ∧
    (∀ (m : List (String × ContactPayload)) (k : String) (v w : ContactPayload),
      dictUpsert (dictUpsert m k v) k w = dictUpsert m k w) := by
  refine ⟨?_, fun m k v => find_dictUpsert m k v, fun m k v w => dictUpsert_overwrite m k v w⟩
  intro tc tp tt tgt src e he
  have hfold : ∀ p ∈ tgt.foldl (fmStep tc tp tt src) [],
      ((p : String × (String × List ContactPayload)).2.2.map
        (fun c => contactKey c.fields)).Nodup := by
    have hgen : ∀ (l : List Row) acc,
        (∀ p ∈ acc, ((p : String × (String × List ContactPayload)).2.2.map
          (fun c => contactKey c.fields)).Nodup) →
        ∀ p ∈ l.foldl (fmStep tc tp tt src) acc,
          ((p : String × (String × List ContactPayload)).2.2.map
            (fun c => contactKey c.fields)).Nodup := by
      intro l
      induction l with
      | nil => intro acc h; exact h
      | cons r l ih =>
        intro acc h
        exact ih _ (fmStep_contacts_nodup tc tp tt src acc r h)
    exact hgen tgt [] (by simp)
  unfold find_matches_core at he
  have he2 := mem_sortByDisplay he
  rcases List.mem_map.mp he2 with ⟨p, hp, hpe⟩
  have hnd := hfold p hp
  rw [← hpe]
  exact hnd

/-- C6 (amended, witness): in the concrete case-variant run the single roster
entry holds the two case-distinct keys, which are pairwise distinct; and a
concrete double upsert of one key keeps only the later payload. -/
theorem c6_amended_witness :
    ((("acme", "Acme",
        [⟨[("First Name", "Jane"), ("Last Name", "Doe"),
           ("Email Address", "j@a.co"), ("Company", "Acme")], false⟩,
         ⟨[("First Name", "JANE"), ("Last Name", "DOE"),
           ("Email Address", "J@A.CO"), ("Company", "Acme")], false⟩]) :
      RosterEntry).2.2.map (fun c => contactKey c.fields)).Pairwise
        (fun a b => a ≠ b) ∧
    dictUpsert (dictUpsert ([] : List (String × ContactPayload)) "k" ⟨[], false⟩)
        "k" ⟨[], true⟩ =
      dictUpsert ([] : List (String × ContactPayload)) "k" ⟨[], true⟩ := by
  constructor
  · have hrun : find_matches_core 85 85 70 c6_target c6_source =
        [("acme", "Acme",
          [⟨[("First Name", "Jane"), ("Last Name", "Doe"),
             ("Email Address", "j@a.co"), ("Company", "Acme")], false⟩,
           ⟨[("First Name", "JANE"), ("Last Name", "DOE"),
             ("Email Address", "J@A.CO"), ("Company", "Acme")], false⟩])] := by
      rfl
    refine c6_amended_exact_key_dedup.1 85 85 70 c6_target c6_source _ ?_
    rw [hrun]
    exact List.mem_singleton_self _
  · exact c6_amended_exact_key_dedup.2.2 [] "k" ⟨[], false⟩ ⟨[], true⟩


/-! ## Helper lemmas for the education-keyword exemption -/

theorem infix_append_left {l1 l2 l3 : List Char} (h : l1 <:+: l2) : l1 <:+: l3 ++ l2 := by
  obtain ⟨s, t, rfl⟩ := h
  exact ⟨l3 ++ s, t, by simp⟩

theorem infix_dropWhile {kw : List Char} (p : Char → Bool)
    (hne : kw ≠ []) (hall : ∀ c ∈ kw, p c = false) :
    ∀ {l : List Char}, kw <:+: l → kw <:+: l.dropWhile p := by
  intro l
  induction l with
  | nil => intro h; exact absurd (List.eq_nil_of_infix_nil h) hne
  | cons c l ih =>
    intro h
    by_cases hc : p c = true
    · rw [List.dropWhile_cons, if_pos hc]
      rcases List.infix_cons_iff.mp h with hp | hi
      · rcases kw with _ | ⟨k0, kt⟩
        · exact absurd rfl hne
        · have hk := (List.cons_prefix_cons.mp hp).1
          have hf := hall k0 (List.mem_cons_self k0 kt)
          rw [hk] at hf
          rw [hf] at hc
          exact absurd hc (by simp)
      · exact ih hi
    · rw [List.dropWhile_cons, if_neg hc]
      exact h

theorem infix_dropRightWhile {kw : List Char} (p : Char → Bool)
    (hne : kw ≠ []) (hall : ∀ c ∈ kw, p c = false)
    {l : List Char} (h : kw <:+: l) : kw <:+: dropRightWhileL p l := by
  unfold dropRightWhileL
  have h2 : kw.reverse <:+: l.reverse := List.reverse_infix.mpr h
  have h3 : kw.reverse <:+: l.reverse.dropWhile p :=
    infix_dropWhile p (by simpa using hne)
      (fun c hc => hall c (List.mem_reverse.mp hc)) h2
  have h4 := List.reverse_infix.mpr h3
  simpa using h4

theorem infix_filter {kw : List Char} (q : Char → Bool)
    (hall : ∀ c ∈ kw, q c = true)
    {l : List Char} (h : kw <:+: l) : kw <:+: l.filter q := by
  obtain ⟨s, t, rfl⟩ := h
  exact ⟨s.filter q, t.filter q, by
    simp [List.filter_append, List.filter_eq_self.mpr hall]⟩

theorem theStrip_cases (l : List Char) :
    theStrip l = l ∨ ∃ rest, l = 't' :: 'h' :: 'e' :: rest ∧
      theStrip l = rest.dropWhile pyWs := by
  unfold theStrip
  split
  · split
    · split
      · exact Or.inr ⟨_, rfl, rfl⟩
      · exact Or.inl rfl
    · exact Or.inl rfl
  · exact Or.inl rfl

theorem infix_peel {k0 : Char} {kt : List Char} (a : Char) (l2 : List Char)
    (hne : k0 ≠ a) (h : k0 :: kt <:+: a :: l2) : k0 :: kt <:+: l2 := by
  rcases List.infix_cons_iff.mp h with hp | hi
  · exact absurd (List.cons_prefix_cons.mp hp).1 hne
  · exact hi

theorem infix_theStrip {kw : List Char}
    (hne : kw ≠ []) (hws : ∀ c ∈ kw, pyWs c = false)
    (hhd : kw.headD ' ' ≠ 't' ∧ kw.headD ' ' ≠ 'h' ∧ kw.headD ' ' ≠ 'e')
    {l : List Char} (h : kw <:+: l) : kw <:+: theStrip l := by
  rcases theStrip_cases l with hts | ⟨rest, hl, hts⟩
  · rw [hts]; exact h
  · rw [hts]
    subst hl
    rcases kw with _ | ⟨k0, kt⟩
    · exact absurd rfl hne
    obtain ⟨h0, h1, h2⟩ := hhd
    have h3 := infix_peel 't' _ h0 h
    have h4 := infix_peel 'h' _ h1 h3
    have h5 := infix_peel 'e' _ h2 h4
    exact infix_dropWhile pyWs hne hws h5

theorem matchAmpAt_eq_none {c : Char} (cs : List Char)
    (hws : pyWs c = false) (hamp : c ≠ '&') :
    matchAmpAt (c :: cs) = none := by
  unfold matchAmpAt
  rw [List.dropWhile_cons, if_neg (by simp [hws])]
  split
  · rename_i rest heq
    injection heq with hc _
    exact absurd hc hamp
  · rfl

theorem prefix_scanAmp :
    ∀ (kw l : List Char) (fuel : Nat),
      (∀ c ∈ kw, pyWs c = false) → (∀ c ∈ kw, c ≠ '&') →
      l.length < fuel → kw <+: l →
      kw <+: scanSubF matchAmpAt [' ', '&', ' '] fuel l := by
  intro kw
  induction kw with
  | nil => intro l fuel _ _ _ _; exact List.nil_prefix
  | cons k0 kt ih =>
    intro l fuel hws hamp hlen hp
    cases l with
    | nil => exact absurd hp (by simp)
    | cons c cs =>
      obtain ⟨hk, hp2⟩ := List.cons_prefix_cons.mp hp
      cases fuel with
      | zero => omega
      | succ f =>
        have hm : matchAmpAt (c :: cs) = none := by
          rw [← hk]
          exact matchAmpAt_eq_none cs (hws k0 (List.mem_cons_self k0 kt))
            (hamp k0 (List.mem_cons_self k0 kt))
        unfold scanSubF
        rw [hm]
        refine List.cons_prefix_cons.mpr ⟨hk, ?_⟩
        refine ih cs f (fun x hx => hws x (List.mem_cons_of_mem k0 hx))
          (fun x hx => hamp x (List.mem_cons_of_mem k0 hx)) ?_ hp2
        simp only [List.length_cons] at hlen
        omega

theorem infix_after_amp {kw : List Char} (hne : kw ≠ [])
    (hws : ∀ c ∈ kw, pyWs c = false) (hamp : ∀ c ∈ kw, c ≠ '&') :
    ∀ (pre l2 : List Char), (∀ c ∈ pre, pyWs c = true) →
      kw <:+: pre ++ '&' :: l2 → kw <:+: l2 := by
  intro pre
  induction pre with
  | nil =>
    intro l2 _ h
    rcases List.infix_cons_iff.mp (by simpa using h) with hp | hi
    · rcases kw with _ | ⟨k0, kt⟩
      · exact absurd rfl hne
      · exact absurd (List.cons_prefix_cons.mp hp).1
          (hamp k0 (List.mem_cons_self k0 kt))
    · exact hi
  | cons d pre ih =>
    intro l2 hpre h
    rw [List.cons_append] at h
    rcases List.infix_cons_iff.mp h with hp | hi
    · rcases kw with _ | ⟨k0, kt⟩
      · exact absurd rfl hne
      · have hk := (List.cons_prefix_cons.mp hp).1
        have hwsk := hws k0 (List.mem_cons_self k0 kt)
        have hd := hpre d (List.mem_cons_self d pre)
        rw [hk] at hwsk
        rw [hwsk] at hd
        exact absurd hd (by simp)
    · exact ih l2 (fun x hx => hpre x (List.mem_cons_of_mem d hx)) hi

theorem infix_scanAmp {kw : List Char}
    (hne : kw ≠ []) (hws : ∀ c ∈ kw, pyWs c = false) (hamp : ∀ c ∈ kw, c ≠ '&') :
    ∀ (fuel : Nat) (l : List Char), l.length < fuel → kw <:+: l →
      kw <:+: scanSubF matchAmpAt [' ', '&', ' '] fuel l := by
  intro fuel
  induction fuel with
  | zero => intro l hlen _; omega
  | succ f ih =>
    intro l hlen h
    cases l with
    | nil => exact absurd (List.eq_nil_of_infix_nil h) hne
    | cons c cs =>
      rcases List.infix_cons_iff.mp h with hp | hi
      · exact (prefix_scanAmp kw (c :: cs) (f + 1) hws hamp hlen hp).isInfix
      · cases hm : matchAmpAt (c :: cs) with
        | none =>
          unfold scanSubF
          rw [hm]
          refine List.infix_cons (ih cs ?_ hi)
          simp only [List.length_cons] at hlen
          omega
        | some r =>
          unfold scanSubF
          rw [hm]
          refine infix_append_left ?_
          have hr : kw <:+: r := by
            unfold matchAmpAt at hm
            split at hm
            · rename_i rest heq
              injection hm with hm2
              have hdec : c :: cs = (c :: cs).takeWhile pyWs ++ '&' :: rest := by
                conv_lhs => rw [← List.takeWhile_append_dropWhile pyWs (c :: cs)]
                rw [heq]
              rw [hdec] at h
              have h5 := infix_after_amp hne hws hamp ((c :: cs).takeWhile pyWs) rest
                (fun x hx => List.mem_takeWhile_imp hx) h
              rw [← hm2]
              exact infix_dropWhile pyWs hne hws h5
            · exact absurd hm (by simp)
          refine ih r ?_ hr
          have := matchAmpAt_length (c :: cs) r hm
          simp only [List.length_cons] at this hlen
          omega

theorem infix_ampSpace {kw : List Char} (hne : kw ≠ [])
    (hws : ∀ c ∈ kw, pyWs c = false) (hamp : ∀ c ∈ kw, c ≠ '&')
    {l : List Char} (h : kw <:+: l) : kw <:+: ampSpace l := by
  unfold ampSpace scanSub
  exact infix_scanAmp hne hws hamp (l.length + 1) l (Nat.lt_succ_self _) h

theorem edu_infix_chain {kw : List Char} (cs : List Char)
    (hne : kw ≠ [])
    (hws : ∀ c ∈ kw, pyWs c = false)
    (hkeep : ∀ c ∈ kw, companyKeep c = true)
    (hamp : ∀ c ∈ kw, c ≠ '&')
    (hhd : kw.headD ' ' ≠ 't' ∧ kw.headD ' ' ≠ 'h' ∧ kw.headD ' ' ≠ 'e')
    (h : kw <:+: cs) :
    kw <:+: theStrip (ampSpace ((pyStripL cs).filter companyKeep)) := by
  have h1 : kw <:+: pyStripL cs := by
    unfold pyStripL
    exact infix_dropRightWhile pyWs hne hws (infix_dropWhile pyWs hne hws h)
  have h2 := infix_filter companyKeep hkeep h1
  have h3 := infix_ampSpace hne hws hamp h2
  exact infix_theStrip hne hws hhd h3

theorem normalize_noSuffix_of_any (cs : List Char)
    (h : edu_keywords.any (fun k => containsSub
      (theStrip (ampSpace ((pyStripL (pyLowerL cs)).filter companyKeep))) k.data) = true) :
    normalize_company_nameL cs = normalize_company_nameL_noSuffix cs := by
  unfold normalize_company_nameL normalize_company_nameL_noSuffix
  dsimp only
  by_cases hq : containsSub
      (theStrip (ampSpace ((pyStripL (pyLowerL cs)).filter companyKeep))) "qcr".data = true
  · rw [if_pos hq, if_pos hq]
  · rw [if_neg hq, if_neg hq, if_pos h]

/-- C7: whenever the lower-cased company name contains one of the education
keywords (university, college, institute, school) as a substring, the code's
`normalize_company_name` coincides with the suffix-free reference pipeline
`normalize_company_name_noSuffix`: the corporate-suffix-stripping stage is
suppressed entirely for such names. -/
theorem c7_edu_suppresses_suffix_strip (s kw : String)
    (hmem : kw ∈ edu_keywords) (hinf : kw.data <:+: pyLowerL s.data) :
    normalize_company_name s = normalize_company_name_noSuffix s := by
  unfold normalize_company_name normalize_company_name_noSuffix
  refine congrArg (fun l => (⟨l⟩ : String)) ?_
  refine normalize_noSuffix_of_any s.data ?_
  refine List.any_eq_true.mpr ⟨kw, hmem, ?_⟩
  refine containsSub_of_infix ?_
  have hmem2 := hmem
  unfold edu_keywords at hmem2
  simp only [List.mem_cons, List.not_mem_nil, or_false] at hmem2
  rcases hmem2 with rfl | rfl | rfl | rfl <;>
    exact edu_infix_chain (pyLowerL s.data) (by decide) (by decide) (by decide)
      (by decide) (by decide) hinf

/-- C7 (witness): "Acme University Inc" contains the education keyword
"university", its normalization agrees with the suffix-free pipeline, and it
concretely retains "university" (with "inc" expanded, not stripped). -/
theorem c7_edu_witness :
    "university" ∈ edu_keywords ∧
    ("university".data <:+: pyLowerL "Acme University Inc".data) ∧
    normalize_company_name "Acme University Inc" =
      normalize_company_name_noSuffix "Acme University Inc" ∧
    normalize_company_name "Acme University Inc" = "acme university incorporated" :=
  ⟨by decide, by decide,
   c7_edu_suppresses_suffix_strip "Acme University Inc" "university"
     (by decide) (by decide),
   by rfl⟩


/-! ## Helper lemmas for the self-ratio of identical strings -/

theorem flmDiag_le_row (s : List Char) : ∀ m j, flmDiag s m j ≤ m := by
  intro m
  induction m with
  | zero => intro j; exact Nat.le_refl 0
  | succ m ih =>
    intro j
    unfold flmDiag
    split
    · by_cases hj : j = 0
      · rw [if_pos hj]; omega
      · rw [if_neg hj]; have := ih (j - 1); omega
    · exact Nat.zero_le _

theorem flmDiag_le_col (s : List Char) : ∀ m j, flmDiag s m j ≤ j + 1 := by
  intro m
  induction m with
  | zero => intro j; exact Nat.zero_le _
  | succ m ih =>
    intro j
    unfold flmDiag
    split
    · by_cases hj : j = 0
      · rw [if_pos hj]; omega
      · rw [if_neg hj]; have := ih (j - 1); omega
    · exact Nat.zero_le _

theorem flmDiag_diag (s : List Char) : ∀ m, m < s.length → flmDiag s (m + 1) m = m + 1 := by
  intro m
  induction m with
  | zero =>
    intro h
    unfold flmDiag
    rw [if_pos ⟨rfl, h⟩, if_pos rfl]
  | succ m ih =>
    intro h
    unfold flmDiag
    rw [if_pos ⟨rfl, h⟩, if_neg (Nat.succ_ne_zero m)]
    have hih := ih (Nat.lt_of_succ_lt h)
    simp only [Nat.add_sub_cancel]
    omega

theorem j2get_map_pair (f : Nat → Nat) (j : Nat) :
    ∀ l : List Nat, j2get (l.map (fun x => (x, f x))) j = if j ∈ l then f j else 0 := by
  intro l
  induction l with
  | nil => simp [j2get]
  | cons x l ih =>
    by_cases hx : x = j
    · subst hx
      unfold j2get
      rw [List.map_cons, List.find?_cons_of_pos _ (by simp)]
      rw [if_pos (List.mem_cons_self x l)]
    · unfold j2get
      rw [List.map_cons, List.find?_cons_of_neg _ (by simpa using hx)]
      unfold j2get at ih
      rw [ih]
      by_cases hj : j ∈ l
      · rw [if_pos hj, if_pos (List.mem_cons_of_mem x hj)]
      · rw [if_neg hj, if_neg (by
          intro hm
          rcases List.mem_cons.mp hm with hm | hm
          · exact hx hm.symm
          · exact hj hm)]

theorem range_split (i n : Nat) (h : i < n) :
    List.range n = List.range' 0 i ++ i :: List.range' (i + 1) (n - i - 1) := by
  rw [List.range_eq_range' n]
  have h3 := List.range'_append 0 i ((n - i - 1) + 1) 1
  have h4 : n - i - 1 + 1 + i = n := by omega
  rw [h4] at h3
  rw [← h3]
  congr 1
  simp only [Nat.one_mul, Nat.zero_add]
  rw [List.range'_succ]

theorem foldl_no_update (kOf : Nat → Nat) (i : Nat) :
    ∀ (l : List Nat) (bst : Nat × Nat × Nat),
      (∀ j ∈ l, kOf j ≤ bst.2.2) →
      l.foldl (fun bst j =>
        if kOf j > bst.2.2 then (i + 1 - kOf j, j + 1 - kOf j, kOf j) else bst) bst = bst := by
  intro l
  induction l with
  | nil => intro bst _; rfl
  | cons x l ih =>
    intro bst h
    rw [List.foldl_cons]
    rw [if_neg (Nat.not_lt.mpr (h x (List.mem_cons_self x l)))]
    exact ih bst (fun j hj => h j (List.mem_cons_of_mem x hj))

theorem best_fold_diag (kOf : Nat → Nat) (i : Nat) (A B : List Nat)
    (hA : ∀ j ∈ A, kOf j ≤ i)
    (hI : kOf i = i + 1)
    (hB : ∀ j ∈ B, kOf j ≤ i + 1) :
    (A ++ i :: B).foldl (fun bst j =>
      if kOf j > bst.2.2 then (i + 1 - kOf j, j + 1 - kOf j, kOf j) else bst)
      (0, 0, i) = (0, 0, i + 1) := by
  rw [List.foldl_append]
  rw [foldl_no_update kOf i A (0, 0, i) hA]
  rw [List.foldl_cons]
  have hstep : (if kOf i > (0, 0, i).2.2 then
      (i + 1 - kOf i, i + 1 - kOf i, kOf i) else ((0 : Nat), (0 : Nat), i)) =
      ((0 : Nat), (0 : Nat), i + 1) := by
    rw [hI, if_pos (Nat.lt_succ_self i)]
    simp
  rw [hstep]
  exact foldl_no_update kOf i B (0, 0, i + 1) hB

theorem mem_flmJs (s : List Char) (i j : Nat) :
    j ∈ (List.range s.length).filter (fun j =>
      decide (0 ≤ j) && decide (j < s.length) && (s.getD j ' ' == s.getD i ' ')) ↔
    (j < s.length ∧ s.getD j ' ' = s.getD i ' ') := by
  simp [List.mem_filter, List.mem_range]

theorem flmRow_eq (a b : List Char) (blo bhi : Nat)
    (st : (Nat × Nat × Nat) × List (Nat × Nat)) (i : Nat) :
    flmRow a b blo bhi st i =
      (((List.range b.length).filter (fun j =>
          decide (blo ≤ j) && decide (j < bhi) && (b.getD j ' ' == a.getD i ' '))).foldl
        (fun bst j =>
          if (if j = 0 then 0 else j2get st.2 (j - 1)) + 1 > bst.2.2 then
            (i + 1 - ((if j = 0 then 0 else j2get st.2 (j - 1)) + 1),
             j + 1 - ((if j = 0 then 0 else j2get st.2 (j - 1)) + 1),
             (if j = 0 then 0 else j2get st.2 (j - 1)) + 1)
          else bst) st.1,
       ((List.range b.length).filter (fun j =>
          decide (blo ≤ j) && decide (j < bhi) && (b.getD j ' ' == a.getD i ' '))).map
        (fun j => (j, (if j = 0 then 0 else j2get st.2 (j - 1)) + 1))) := rfl

theorem flmRow_self (s : List Char) (i : Nat) (hi : i < s.length) (d : List (Nat × Nat))
    (hd : ∀ j, j2get d j = flmDiag s i j) :
    ∃ d2, flmRow s s 0 s.length ((0, 0, i), d) i = ((0, 0, i + 1), d2) ∧
      ∀ j, j2get d2 j = flmDiag s (i + 1) j := by
  have hkA : ∀ j, j ≠ 0 → (if j = 0 then 0 else j2get d (j - 1)) + 1 ≤ j + 1 := by
    intro j hj
    rw [if_neg hj, hd (j - 1)]
    have := flmDiag_le_col s i (j - 1)
    omega
  have hkB : ∀ j, j ≠ 0 → (if j = 0 then 0 else j2get d (j - 1)) + 1 ≤ i + 1 := by
    intro j hj
    rw [if_neg hj, hd (j - 1)]
    have := flmDiag_le_row s i (j - 1)
    omega
  have hsplit : (List.range s.length).filter (fun j =>
      decide (0 ≤ j) && decide (j < s.length) && (s.getD j ' ' == s.getD i ' ')) =
      (List.range' 0 i).filter (fun j =>
        decide (0 ≤ j) && decide (j < s.length) && (s.getD j ' ' == s.getD i ' ')) ++
      i :: (List.range' (i + 1) (s.length - i - 1)).filter (fun j =>
        decide (0 ≤ j) && decide (j < s.length) && (s.getD j ' ' == s.getD i ' ')) := by
    rw [range_split i s.length hi, List.filter_append]
    rw [List.filter_cons_of_pos (by simp [hi])]
  have hI : (if i = 0 then 0 else j2get d (i - 1)) + 1 = i + 1 := by
    by_cases hz : i = 0
    · rw [if_pos hz, hz]
    · rw [if_neg hz, hd (i - 1)]
      have hdg := flmDiag_diag s (i - 1) (by omega)
      have hi1 : i - 1 + 1 = i := by omega
      rw [hi1] at hdg
      rw [hdg]
  have hbest : ((List.range s.length).filter (fun j =>
      decide (0 ≤ j) && decide (j < s.length) && (s.getD j ' ' == s.getD i ' '))).foldl
      (fun bst j =>
        if (if j = 0 then 0 else j2get d (j - 1)) + 1 > bst.2.2 then
          (i + 1 - ((if j = 0 then 0 else j2get d (j - 1)) + 1),
           j + 1 - ((if j = 0 then 0 else j2get d (j - 1)) + 1),
           (if j = 0 then 0 else j2get d (j - 1)) + 1)
        else bst) (0, 0, i) = (0, 0, i + 1) := by
    rw [hsplit]
    refine best_fold_diag (fun j => (if j = 0 then 0 else j2get d (j - 1)) + 1) i _ _
      ?_ hI ?_
    · intro j hj
      dsimp only
      have hjr : j ∈ List.range' 0 i := List.mem_of_mem_filter hj
      have hjlt : j < i := by
        have := List.mem_range'_1.mp hjr
        omega
      by_cases hz : j = 0
      · rw [if_pos hz]
        omega
      · have := hkA j hz
        omega
    · intro j hj
      have hjr : j ∈ List.range' (i + 1) (s.length - i - 1) := List.mem_of_mem_filter hj
      have hjge : i + 1 ≤ j := (List.mem_range'_1.mp hjr).1
      exact hkB j (by omega)
  rw [flmRow_eq]
  dsimp only
  refine ⟨List.map (fun j => (j, (if j = 0 then 0 else j2get d (j - 1)) + 1))
      ((List.range s.length).filter (fun j =>
        decide (0 ≤ j) && decide (j < s.length) && (s.getD j ' ' == s.getD i ' '))),
    ?_, ?_⟩
  · rw [hbest]
  · intro j
    have hmap := j2get_map_pair (fun j => (if j = 0 then 0 else j2get d (j - 1)) + 1) j
      ((List.range s.length).filter (fun j =>
        decide (0 ≤ j) && decide (j < s.length) && (s.getD j ' ' == s.getD i ' ')))
    rw [hmap]
    have hfd : flmDiag s (i + 1) j =
        (if s.getD j ' ' = s.getD i ' ' ∧ j < s.length then
          (if j = 0 then 0 else flmDiag s i (j - 1)) + 1 else 0) := rfl
    by_cases hj : j ∈ (List.range s.length).filter (fun j =>
        decide (0 ≤ j) && decide (j < s.length) && (s.getD j ' ' == s.getD i ' '))
    · rw [if_pos hj, hfd]
      have hj2 := (mem_flmJs s i j).mp hj
      have hcond : s.getD j ' ' = s.getD i ' ' ∧ j < s.length := ⟨hj2.2, hj2.1⟩
      rw [if_pos hcond]
      rw [hd (j - 1)]
    · rw [if_neg hj, hfd]
      have hncond : ¬(s.getD j ' ' = s.getD i ' ' ∧ j < s.length) :=
        fun hc => hj ((mem_flmJs s i j).mpr ⟨hc.2, hc.1⟩)
      rw [if_neg hncond]

theorem flm_fold_self (s : List Char) :
    ∀ m, m ≤ s.length →
      ∃ d, (List.range' 0 m).foldl (flmRow s s 0 s.length) ((0, 0, 0), []) =
        ((0, 0, m), d) ∧ ∀ j, j2get d j = flmDiag s m j := by
  intro m
  induction m with
  | zero => intro _; exact ⟨[], rfl, fun j => rfl⟩
  | succ m ih =>
    intro h
    obtain ⟨d, hfold, hd⟩ := ih (Nat.le_of_succ_le h)
    obtain ⟨d2, hrow, hd2⟩ := flmRow_self s m (Nat.lt_of_succ_le h) d hd
    refine ⟨d2, ?_, hd2⟩
    rw [List.range'_concat]
    rw [List.foldl_append, hfold]
    simp only [List.foldl_cons, List.foldl_nil, Nat.one_mul, Nat.zero_add]
    exact hrow

theorem flm_self (s : List Char) : flm s s 0 s.length 0 s.length = (0, 0, s.length) := by
  unfold flm
  obtain ⟨d, hfold, _⟩ := flm_fold_self s s.length (Nat.le_refl _)
  rw [Nat.sub_zero, hfold]

theorem mbAux_degenerate (s : List Char) (fuel alo blo : Nat) :
    mbAux s s fuel alo alo blo blo = [] := by
  cases fuel with
  | zero => rfl
  | succ f =>
    unfold mbAux
    have hr : flm s s alo alo blo blo = (alo, blo, 0) := by
      unfold flm
      rw [Nat.sub_self]
      rfl
    rw [hr]
    simp

theorem matching_blocks_self (s : List Char) (h : s ≠ []) :
    get_matching_blocks s s = [(0, 0, s.length), (s.length, s.length, 0)] := by
  have hn : 0 < s.length := List.length_pos.mpr h
  unfold get_matching_blocks
  have hm : mbAux s s (s.length + s.length + 1) 0 s.length 0 s.length =
      [(0, 0, s.length)] := by
    unfold mbAux
    rw [flm_self s]
    rw [if_neg (by simpa using Nat.pos_iff_ne_zero.mp hn)]
    dsimp only
    simp only [Nat.zero_add]
    rw [mbAux_degenerate, mbAux_degenerate]
    rfl
  rw [hm]
  have hmg : mergeAdjacent [(0, 0, s.length)] = [(0, 0, s.length)] := by
    have hne : s.length ≠ 0 := by omega
    simp [mergeAdjacent, hne]
  rw [hmg]
  rfl

theorem matchedSum_self (s : List Char) (h : s ≠ []) : matchedSum s s = s.length := by
  unfold matchedSum
  rw [matching_blocks_self s h]
  simp

theorem ratio_self (s : List Char) (h : s ≠ []) : fuzz_ratio s s = 100 := by
  have hn : 0 < s.length := List.length_pos.mpr h
  unfold fuzz_ratio
  rw [if_neg (by simp [List.isEmpty_iff, h])]
  rw [matchedSum_self s h]
  unfold ratioScoreN
  rw [if_neg (by omega)]
  unfold pyRound2
  have hdiv : 200 * s.length / (s.length + s.length) = 100 := by
    have h2 : 200 * s.length = 100 * (s.length + s.length) := by ring
    rw [h2]
    exact Nat.mul_div_cancel 100 (by omega)
  have hmod : 200 * s.length % (s.length + s.length) = 0 := by
    have h2 : 200 * s.length = 100 * (s.length + s.length) := by ring
    rw [h2]
    exact Nat.mul_mod_left 100 _
  rw [hdiv, hmod]
  rw [if_pos (by omega)]


/-- C5: when both contacts carry non-empty email values whose lower-cased
forms are exactly equal, and the normalized companies are non-empty and meet
the company threshold, `pairScore` succeeds with a score of at least
`person_name + 10`, and `find_person_matches` accepts the pair as a person
match regardless of the name similarity. -/
theorem c5_email_exact_boost (ci ct : Contact) (th : Thresholds)
    (he1 : dictGet ci "email" ≠ "") (he2 : dictGet ct "email" ≠ "")
    (heq : pyLowerL (dictGet ci "email").data = pyLowerL (dictGet ct "email").data)
    (hc1 : normalize_company_name (dictGet ci "company") ≠ "")
    (hc2 : normalize_company_name (dictGet ct "company") ≠ "")
    (hcs : th.company_name ≤ fuzzMax3 (normalize_company_name (dictGet ci "company")).data
      (normalize_company_name (dictGet ct "company")).data) :
    ∃ sc, pairScore th.company_name th.person_name ci ct = some sc ∧
      th.person_name + 10 ≤ sc ∧
      find_person_matches [ci] [ct] th = [⟨ci, ct, sc⟩] := by
  have hne : pyLowerL (dictGet ct "email").data ≠ [] := by
    intro hmap
    apply he2
    exact String.ext (List.map_eq_nil_iff.mp hmap)
  obtain ⟨v, hps⟩ : ∃ v, pairScore th.company_name th.person_name ci ct =
      some (max v (th.person_name + 10)) :=
    ⟨_, by
      unfold pairScore
      dsimp only
      rw [if_neg (not_or.mpr ⟨hc1, hc2⟩)]
      rw [if_neg (Nat.not_lt.mpr hcs)]
      rw [if_pos ⟨he1, he2⟩]
      rw [heq, ratio_self _ hne, if_pos rfl]⟩
  have hle : th.person_name + 10 ≤ max v (th.person_name + 10) := le_max_right _ _
  have hbt : bestTargetFor th.company_name th.person_name ci [ct] =
      some ⟨ci, ct, max v (th.person_name + 10)⟩ := by
    unfold bestTargetFor
    rw [List.foldl_cons]
    rw [hps]
    dsimp only
    rw [if_pos ⟨Nat.le_trans (Nat.le_add_right _ _) hle, Nat.lt_of_lt_of_le (by omega) hle⟩]
    rfl
  refine ⟨max v (th.person_name + 10), hps, hle, ?_⟩
  unfold find_person_matches find_person_matches_core
  rw [List.foldl_cons]
  rw [hbt]
  rfl

/-- C5 (witness): the concrete pair with companies "Acme" and case-variant
equal emails "p@q.r" / "P@Q.R" is matched with a score of at least the
default person threshold plus ten. -/
theorem c5_email_exact_boost_witness :
    ∃ sc, pairScore default_thresholds.company_name default_thresholds.person_name
        c5_input c5_target = some sc ∧
      default_thresholds.person_name + 10 ≤ sc ∧
      find_person_matches [c5_input] [c5_target] default_thresholds =
        [⟨c5_input, c5_target, sc⟩] :=
  c5_email_exact_boost c5_input c5_target default_thresholds
    (by decide) (by decide) (by rfl) (by decide) (by decide) (by decide)

end CM
